import Mathlib

set_option maxRecDepth 100000

/-!
Verification of the svgsteg steganography core (svgsteg.py).

The program hides a message in an SVG document by overwriting the final
decimal digit of floating-point literals found in a fixed set of
tag/attribute pairs.  We shallowly embed the Python code:

* an SVG document is a list of elements in document order; each element has
  a tag name and an association list of attribute values (attribute values
  are lists of characters so that Python slicing maps to drop/take);
* `finditer` models the regex scan with pattern [0-9]+\.[0-9]+ used by
  `get_slots`;
* Python 2's `sorted` on tuples `(node, attr, match)` compares minidom
  element objects and regex match objects by object identity, so the model
  takes the identity (address) assignments as explicit parameters
  `aN : Nat → Nat` (address of the element with a given document-order
  index) and `aM : Nat → String → Nat → Nat` (address of the match object
  for a given element, attribute and match start offset);
* the keyed shuffle (random.seed(key); random.shuffle(slots)) is modelled
  by a parameter `permFn : String → Nat → List Nat` giving, for a key and a
  list length, the list of source indices after the shuffle; theorems that
  need it assume it is a permutation of `List.range n`;
* the fresh randomness used by `embed_bit` (random.randint(1,4)) is a
  parameter `rs : Nat → Nat`, the value drawn at the i-th embedded bit.
-/

/-- Characters '0'..'9', the character class of the regex digit. -/
def isDig (c : Char) : Bool := decide ('0' ≤ c) && decide (c ≤ '9')

/-- Number of leading digit characters, the greedy [0-9]+ munch. -/
def digCount (cs : List Char) : Nat := (cs.takeWhile isDig).length

/-- Attempt to match [0-9]+\.[0-9]+ at the head of the list; returns the
length of the (greedy) match. -/
def matchAt (cs : List Char) : Option Nat :=
  let d1 := digCount cs
  if d1 = 0 then none
  else
    match cs.drop d1 with
    | c :: rest2 =>
      if c = '.' then
        let d2 := digCount rest2
        if d2 = 0 then none else some (d1 + 1 + d2)
      else none
    | [] => none

/-- Fuelled scan of re.finditer: try a match at each position, emit the
span and resume after a match, else advance one character. -/
def finditerGo : Nat → List Char → Nat → List (Nat × Nat)
  | 0, _, _ => []
  | _ + 1, [], _ => []
  | fuel + 1, c :: rest, pos =>
    match matchAt (c :: rest) with
    | some len => (pos, pos + len) :: finditerGo fuel (List.drop (len - 1) rest) (pos + len)
    | none => finditerGo fuel rest (pos + 1)

/-- All matches of the float regex in a string, as (start, end) spans. -/
def finditer (cs : List Char) : List (Nat × Nat) := finditerGo cs.length cs 0

/-- An SVG element: tag name and attribute association list. -/
structure Element where
  tag : String
  attrs : List (String × List Char)
deriving DecidableEq

/-- A parsed document: its elements in document order. -/
abbrev Doc := List Element

def emptyElem : Element := ⟨"", []⟩

/-- minidom getAttribute restricted to present attributes (`none` when the
attribute is absent). -/
def getAttrVal (e : Element) (a : String) : Option (List Char) :=
  (e.attrs.find? (fun p => p.1 = a)).map (fun p => p.2)

/-- minidom setAttribute: replace the value when present, append when not. -/
def setAttrVal (e : Element) (a : String) (v : List Char) : Element :=
  if e.attrs.any (fun p => p.1 = a) then
    ⟨e.tag, e.attrs.map (fun p => if p.1 = a then (a, v) else p)⟩
  else ⟨e.tag, e.attrs ++ [(a, v)]⟩

/-- Attribute value of the i-th element of the document. -/
def docAttr (doc : Doc) (i : Nat) (a : String) : Option (List Char) :=
  getAttrVal (doc.getD i emptyElem) a

/-- The embed_tags table of svgsteg.py: tag names with the attributes that
may carry embedding slots. -/
def embed_tags : List (String × List String) :=
  [("linearGradient", ["x1", "y1", "x2", "y2"]),
   ("radialGradient", ["cx", "cy", "r", "gradientTransform"]),
   ("path", ["d"])]

/-- Attribute list of a tag in the embed_tags table. -/
def tagAttrs (t : String) : List String :=
  ((embed_tags.find? (fun p => p.1 = t)).map (fun p => p.2)).getD []

/-- Document-order indices of the eligible elements, grouped per tag the way
the getElementsByTagName calls of get_nodes accumulate them. -/
def eligibleBuilt (doc : Doc) : List Nat :=
  (embed_tags.map (fun p => p.1)).flatMap
    (fun t => (List.range doc.length).filter (fun i => (doc.getD i emptyElem).tag = t))

/-- Stable insertion of an element into a list: the element goes before
the first entry it compares ≤ to. -/
def insertSorted (le : α → α → Bool) (x : α) : List α → List α
  | [] => [x]
  | y :: ys => if le x y then x :: y :: ys else y :: insertSorted le x ys

/-- Stable sort. Python's sorted(...) is a stable sort; for the total,
transitive comparisons used here every stable sort returns the same list,
so insertion sort is a faithful model of it (and, unlike well-founded
recursion, evaluates inside the kernel). -/
def isort (le : α → α → Bool) : List α → List α
  | [] => []
  | x :: xs => insertSorted le x (isort le xs)

/-- Python 2 comparison of two elements: by object address. -/
def nodeLE (aN : Nat → Nat) (i j : Nat) : Bool := decide (aN i ≤ aN j)

/-- Ascending order on document indices (the order addresses take under
CPython's allocation of the parse). -/
def natLEB (i j : Nat) : Bool := decide (i ≤ j)

/-- get_nodes of svgsteg.py: all elements whose tag is in the table, sorted
by Python 2 object comparison, i.e. by address. -/
def get_nodes (doc : Doc) (aN : Nat → Nat) : List Nat :=
  isort (nodeLE aN) (eligibleBuilt doc)

/-- One discovered embedding slot: element document index, attribute name,
the snapshot of the attribute value taken at discovery time (match.string),
and the match span. -/
structure Slot where
  nodeIdx : Nat
  attr : String
  s : List Char
  start : Nat
  stop : Nat
deriving DecidableEq

def dummySlot : Slot := ⟨0, "", [], 0, 0⟩

/-- Slots contributed by one attribute of one element. -/
def slotsOfAttr (doc : Doc) (i : Nat) (a : String) : List Slot :=
  match docAttr doc i a with
  | none => []
  | some v => (finditer v).map (fun sp => ⟨i, a, v, sp.1, sp.2⟩)

/-- All slots discovered by the traversal loop of get_slots, before its
final sorted(...) call. -/
def rawSlots (doc : Doc) (nodes : List Nat) : List Slot :=
  nodes.flatMap (fun i =>
    (tagAttrs (doc.getD i emptyElem).tag).flatMap (fun a => slotsOfAttr doc i a))

/-- Strict character-wise lexicographic comparison of strings as lists of
characters, Python 2's byte-wise string < on the ASCII names compared here. -/
def strLT : List Char → List Char → Bool
  | [], [] => false
  | [], _ :: _ => true
  | _ :: _, [] => false
  | a :: as, b :: bs =>
    if a.toNat < b.toNat then true
    else if b.toNat < a.toNat then false
    else strLT as bs

def strLTs (s t : String) : Bool := strLT s.data t.data

/-- Lexicographic order on (Nat, String, Nat) triples, the order Python 2
uses on the comparison keys of the slot tuples. -/
def tripLE (x y : Nat × String × Nat) : Bool :=
  if x.1 < y.1 then true
  else if y.1 < x.1 then false
  else if strLTs x.2.1 y.2.1 then true
  else if strLTs y.2.1 x.2.1 then false
  else decide (x.2.2 ≤ y.2.2)

/-- The comparison key Python 2 effectively uses on a slot tuple
(node, attr, match): element address, attribute string, match address. -/
def pyKey (aN : Nat → Nat) (aM : Nat → String → Nat → Nat) (sl : Slot) :
    Nat × String × Nat :=
  (aN sl.nodeIdx, sl.attr, aM sl.nodeIdx sl.attr sl.start)

/-- The canonical key of the spec: document index, attribute name, start. -/
def canonKey (sl : Slot) : Nat × String × Nat := (sl.nodeIdx, sl.attr, sl.start)

def slotLE (aN : Nat → Nat) (aM : Nat → String → Nat → Nat) (s t : Slot) : Bool :=
  tripLE (pyKey aN aM s) (pyKey aN aM t)

def canonLE (s t : Slot) : Bool := tripLE (canonKey s) (canonKey t)

/-- get_slots of svgsteg.py: traverse, then sorted(...) under Python 2
tuple comparison. -/
def get_slots (doc : Doc) (aN : Nat → Nat) (aM : Nat → String → Nat → Nat) :
    List Slot :=
  isort (slotLE aN aM) (rawSlots doc (get_nodes doc aN))

/-- The canonical slot sequence: discovery followed by sorting under the
canonical key. -/
def canonSlots (doc : Doc) : List Slot :=
  isort canonLE (rawSlots doc (isort natLEB (eligibleBuilt doc)))

/-- pad of svgsteg.py: left-pad a bitstring with zeros to length n. -/
def pad (l : List Nat) (n : Nat) : List Nat := List.replicate (n - l.length) 0 ++ l

/-- Fuelled binary expansion: enough fuel makes it Python's bin(n)[2:]. -/
def binAux : Nat → Nat → List Nat
  | 0, n => [n]
  | fuel + 1, n => if n < 2 then [n] else binAux fuel (n / 2) ++ [n % 2]

/-- Python bin(n) without the 0b prefix, as a list of 0/1 most significant
bit first (structural recursion on a fuel argument so that it evaluates
inside the kernel; bin_eq below recovers the defining recursion). -/
def bin (n : Nat) : List Nat := binAux n n

/-- Value of a bitstring read most significant bit first. -/
def ofBits (l : List Nat) : Nat := l.foldl (fun a b => 2 * a + b) 0

/-- embed_bit of svgsteg.py: splice a fresh final digit 2*r + bit into the
literal at the slot's span, reading the current attribute value. -/
def embed_bit (bit : Nat) (r : Nat) (sl : Slot) (doc : Doc) : Doc :=
  let node := doc.getD sl.nodeIdx emptyElem
  let av := (getAttrVal node sl.attr).getD []
  let fp := (av.drop sl.start).take (sl.stop - sl.start)
  let lsd := 2 * r + bit
  let emb := fp.dropLast ++ [Char.ofNat (48 + lsd)]
  let newv := av.take sl.start ++ emb ++ av.drop sl.stop
  doc.set sl.nodeIdx (setAttrVal node sl.attr newv)

/-- extract_bit of svgsteg.py: parity of the final digit of the literal,
read from the snapshot string recorded in the match object. -/
def extract_bit (sl : Slot) : Nat :=
  let fp := (sl.s.drop sl.start).take (sl.stop - sl.start)
  if ((fp.getLastD '0').toNat - 48) % 2 = 0 then 0 else 1

/-- Reorder a slot list by a list of source indices (the result of the
keyed in-place shuffle). -/
def applyPerm (idxs : List Nat) (slots : List Slot) : List Slot :=
  idxs.map (fun i => slots.getD i dummySlot)

/-- Frame a payload: 8 bits per byte most significant first, then prepend
the 32-bit length header, exactly as the do_embed loop builds bitstring. -/
def frameBits (msg : List Nat) : List Nat :=
  let body := msg.flatMap (fun b => pad (bin b) 8)
  pad (bin body.length) 32 ++ body

/-- The embedding loop of do_embed: write bit i into permuted slot i. -/
def embedWrites (bits : List Nat) (slots : List Slot) (rs : Nat → Nat) (doc : Doc) : Doc :=
  (List.range bits.length).foldl
    (fun d i => embed_bit (bits.getD i 0) (rs i) (slots.getD i dummySlot) d) doc

/-- do_embed of svgsteg.py after argument and file handling: returns the
final document state and whether embedding succeeded (false models the
CapacityExceeded error written to stderr, with an early return that leaves
the document untouched). -/
def do_embed (permFn : String → Nat → List Nat) (rs : Nat → Nat)
    (aN : Nat → Nat) (aM : Nat → String → Nat → Nat)
    (key : String) (msg : List Nat) (doc : Doc) : Doc × Bool :=
  let slots0 := get_slots doc aN aM
  let slots := applyPerm (permFn key slots0.length) slots0
  let bits := frameBits msg
  if bits.length > slots.length then (doc, false)
  else (embedWrites bits slots rs doc, true)

/-- Failure modes of the extraction loop: an out-of-range slot index (an
uncaught Python IndexError) or the explicit capacity check. -/
inductive ExtractErr where
  | indexError : ExtractErr
  | capacityMismatch : ExtractErr
deriving DecidableEq

/-- The header loop of do_extract: msg_len += 2^(31-i) * extract_bit(slots[i])
over i in range(32), failing where Python indexing would raise. -/
def headerGo (slots : List Slot) : List Nat → Nat → Except ExtractErr Nat
  | [], acc => .ok acc
  | i :: rest, acc =>
    match slots[i]? with
    | none => .error .indexError
    | some s => headerGo slots rest (acc + 2 ^ (31 - i) * extract_bit s)

/-- The reconstruction loop of do_extract: read slot i, accumulate the
character value, append a character every 8 bits. -/
def bodyGo (slots : List Slot) : List Nat → Nat → Nat → List Nat → Except ExtractErr (List Nat)
  | [], _, _, msg => .ok msg
  | i :: rest, b, cv, msg =>
    match slots[i]? with
    | none => .error .indexError
    | some s =>
      let cv2 := cv + 2 ^ b * extract_bit s
      if b = 0 then bodyGo slots rest 7 0 (msg ++ [cv2])
      else bodyGo slots rest (b - 1) cv2 msg

/-- do_extract of svgsteg.py restricted to a given permuted slot list. -/
def extractCore (slots : List Slot) : Except ExtractErr (List Nat) :=
  match headerGo slots (List.range 32) 0 with
  | .error e => .error e
  | .ok msgLen =>
    if msgLen > slots.length then .error .capacityMismatch
    else bodyGo slots ((List.range msgLen).map (fun j => 32 + j)) 7 0 []

/-- do_extract of svgsteg.py after argument and file handling: rediscover
the slots, replay the keyed shuffle, read header then body. -/
def do_extract (permFn : String → Nat → List Nat)
    (aN : Nat → Nat) (aM : Nat → String → Nat → Nat)
    (key : String) (doc : Doc) : Except ExtractErr (List Nat) :=
  let slots0 := get_slots doc aN aM
  extractCore (applyPerm (permFn key slots0.length) slots0)

/-- Pure shadow of the reconstruction loop on an already read bit list. -/
def assembleGo : List Nat → Nat → Nat → List Nat → List Nat
  | [], _, _, msg => msg
  | bit :: rest, b, cv, msg =>
    let cv2 := cv + 2 ^ b * bit
    if b = 0 then assembleGo rest 7 0 (msg ++ [cv2])
    else assembleGo rest (b - 1) cv2 msg

/-- Characters recovered from a bit list by the reconstruction loop. -/
def assemble (bits : List Nat) : List Nat := assembleGo bits 7 0 []

/-- Capacity formula of do_capacity: Python 2 integer division is floor
division, so (n - 32) / 8 is Int.fdiv. -/
def capacityVal (n : Nat) : Int := Int.fdiv ((n : Int) - 32) 8

/-- What opening and parsing a path can yield in do_capacity: IOError,
get_svg's ValueError, or a parsed document. -/
inductive FileContent where
  | missing : FileContent
  | invalid : FileContent
  | valid : Doc → FileContent

/-- Terminal outcomes of do_capacity. -/
inductive CapErr where
  | indexError : CapErr
  | invalidFile : CapErr
  | invalidImage : CapErr
deriving DecidableEq

/-- Observable result of do_capacity: whether the usage tip was written to
stderr, and the printed capacity or the error that ended the call. -/
structure CapOut where
  usageWritten : Bool
  result : Except CapErr Int

/-- do_capacity of svgsteg.py: note the wrong-argument-count branch writes
the usage tip but does not return, so argv[0] is evaluated regardless. -/
def do_capacity (fs : String → FileContent)
    (aN : Nat → Nat) (aM : Nat → String → Nat → Nat)
    (argv : List String) : CapOut :=
  let usage := argv.length != 1
  match argv[0]? with
  | none => ⟨usage, .error .indexError⟩
  | some p =>
    match fs p with
    | .missing => ⟨usage, .error .invalidFile⟩
    | .invalid => ⟨usage, .error .invalidImage⟩
    | .valid doc => ⟨usage, .ok (capacityVal (get_slots doc aN aM).length)⟩

/-! Concrete documents and parameter instances used to exercise the model.
`idPerm` is the identity shuffle (a legitimate value of the abstract keyed
permutation), `idN`/`idM` are document-order address assignments. -/

def sChars (s : String) : List Char := s.data

def idPerm : String → Nat → List Nat := fun _ n => List.range n

def idN : Nat → Nat := fun i => i

def idM : Nat → String → Nat → Nat := fun _ _ st => st

/-- A run of n copies of the float "1.5 ": n slots, all even final digit. -/
def mkFloats (n : Nat) : String := String.join (List.replicate n "1.5 ")

/-- Cover with 48 slots: exact fit for a 2-byte message. -/
def docA : Doc := [⟨"path", [("d", sChars (mkFloats 48))]⟩]

/-- Cover with 47 slots: one short of a 2-byte message. -/
def docB : Doc := [⟨"path", [("d", sChars (mkFloats 47))]⟩]

/-- Document with 31 slots: fewer than the 32 header slots. -/
def docC : Doc := [⟨"path", [("d", sChars (mkFloats 31))]⟩]

/-- Document with 32 slots whose header decodes to L = 1 (slot 31 odd). -/
def docD : Doc := [⟨"path", [("d", sChars (String.join (List.replicate 31 "1.2 ") ++ "1.3"))]⟩]

/-- Document with 41 slots whose header decodes to L = 9
(bits 28..31 are 1001). -/
def docE : Doc :=
  [⟨"path", [("d", sChars (String.join (List.replicate 28 "1.2 ") ++ "1.3 1.2 1.2 1.3 " ++
      String.join (List.replicate 8 "1.3 ") ++ "1.2"))]⟩]

/-- Document mixing several eligible tags, attribute multiplicities and an
ineligible element, to exercise the canonical ordering. -/
def docH : Doc :=
  [⟨"linearGradient", [("y1", sChars "1.25"), ("x1", sChars "3.5 4.75"), ("x2", sChars "0.5")]⟩,
   ⟨"rect", [("x", sChars "9.9")]⟩,
   ⟨"path", [("d", sChars "M 1.5 2.5")]⟩,
   ⟨"radialGradient", [("cx", sChars "7.5"), ("r", sChars "8.125")]⟩]

/-- Document with exactly 40 slots. -/
def docF : Doc := [⟨"path", [("d", sChars (mkFloats 40))]⟩]

/-- Document with 40 slots whose header decodes to L = 6 (bits 29,30 set):
L + 32 = 38 ≤ 40, so extraction succeeds. -/
def docG : Doc :=
  [⟨"path", [("d", sChars (String.join (List.replicate 29 "1.2 ") ++ "1.3 1.3 1.2 " ++
      "1.3 1.2 1.3 1.2 1.3 1.2 1.2 1.2"))]⟩]

/-- The big-endian value declared by the first 32 permuted slots, the
number the header loop of do_extract computes when all reads succeed. -/
def headerVal (slots : List Slot) : Nat :=
  ofBits ((List.range 32).map (fun i => extract_bit (slots.getD i dummySlot)))

/-- The L bits following the header, as read by the reconstruction loop. -/
def bodyBits (slots : List Slot) (L : Nat) : List Nat :=
  (List.range L).map (fun j => extract_bit (slots.getD (32 + j) dummySlot))

/-- Character class as seen by the float regex: digit, dot, or other.
The regex scan depends on values only through this classification. -/
def charClass (c : Char) : Nat := if isDig c then 0 else if c = '.' then 1 else 2

/-- One write of the embedding loop: the bit, the draw of randint(1,4),
and the slot written. -/
abbrev Write := Nat × Nat × Slot

/-- The embedding loop as a fold over an explicit list of writes. -/
def embedFold : List Write → Doc → Doc
  | [], d => d
  | (b, r, sl) :: rest, d => embedFold rest (embed_bit b r sl d)

/-- The writes performed by do_embed's loop, in order. -/
def packWrites (bits : List Nat) (slots : List Slot) (rs : Nat → Nat) : List Write :=
  (List.range bits.length).map (fun i => (bits.getD i 0, rs i, slots.getD i dummySlot))

/-- Net effect of a write list on the value of attribute b of element j. -/
def applyWrites (ws : List Write) (j : Nat) (b : String) (v : List Char) : List Char :=
  ws.foldl (fun acc w =>
    if w.2.2.nodeIdx = j ∧ w.2.2.attr = b then
      acc.set (w.2.2.stop - 1) (Char.ofNat (48 + (2 * w.2.1 + w.1)))
    else acc) v

/-- The single character position a slot's write touches. -/
def target (sl : Slot) : Nat × String × Nat := (sl.nodeIdx, sl.attr, sl.stop - 1)

/-- A slot re-read against a mutated document: same span, fresh snapshot. -/
def snapUpdate (d : Doc) (sl : Slot) : Slot :=
  ⟨sl.nodeIdx, sl.attr, (docAttr d sl.nodeIdx sl.attr).getD [], sl.start, sl.stop⟩

/-- Well-formedness of a discovered slot: the snapshot is the current
attribute value, the span is nonempty and in range, and the character
before the end of the span is a digit. -/
def slotWf (doc : Doc) (sl : Slot) : Prop :=
  docAttr doc sl.nodeIdx sl.attr = some sl.s ∧ sl.start < sl.stop ∧
  sl.stop ≤ sl.s.length ∧ ∃ c, sl.s[sl.stop - 1]? = some c ∧ isDig c = true

/-! Basic helper lemmas about the document model. -/

theorem find?_replace_same (attrs : List (String × List Char)) (a : String) (v : List Char) :
    List.find? (fun p => p.1 = a) (attrs.map (fun p => if p.1 = a then (a, v) else p)) =
      if attrs.any (fun p => p.1 = a) then some (a, v) else none := by
  induction attrs with
  | nil => simp
  | cons p rest ih =>
    by_cases hp : p.1 = a
    · simp [List.find?_cons, hp]
    · simp only [List.map_cons, if_neg hp, List.find?_cons, List.any_cons]
      have hd : (decide (p.1 = a)) = false := by simp [hp]
      simp only [hd, Bool.false_or]
      simpa using ih

theorem find?_replace_ne (attrs : List (String × List Char)) (a a2 : String) (v : List Char)
    (h : a2 ≠ a) :
    List.find? (fun p => p.1 = a2) (attrs.map (fun p => if p.1 = a then (a, v) else p)) =
      List.find? (fun p => p.1 = a2) attrs := by
  induction attrs with
  | nil => simp
  | cons p rest ih =>
    by_cases hp : p.1 = a
    · have h2 : ¬ ((a : String) = a2) := fun hc => h hc.symm
      have h3 : ¬ (p.1 = a2) := by rw [hp]; exact h2
      simp [List.find?_cons, hp, h2, h3, ih]
    · by_cases hq : p.1 = a2
      · simp [List.find?_cons, hp, hq, h]
      · simp [List.find?_cons, hp, hq, ih]

theorem getAttrVal_setAttrVal_same (e : Element) (a : String) (v : List Char)
    (h : (getAttrVal e a).isSome) : getAttrVal (setAttrVal e a v) a = some v := by
  rcases e with ⟨t, attrs⟩
  have h1 : (List.find? (fun p => p.1 = a) attrs).isSome := by
    simpa [getAttrVal] using h
  have hany : attrs.any (fun p => p.1 = a) = true := by
    rw [Option.isSome_iff_exists] at h1
    obtain ⟨p, hp⟩ := h1
    have := List.find?_some hp
    have hmem := List.mem_of_find?_eq_some hp
    exact List.any_eq_true.mpr ⟨p, hmem, this⟩
  simp only [setAttrVal, hany, if_true, getAttrVal]
  rw [find?_replace_same, hany]
  simp

theorem getAttrVal_setAttrVal_ne (e : Element) (a a2 : String) (v : List Char)
    (h : a2 ≠ a) : getAttrVal (setAttrVal e a v) a2 = getAttrVal e a2 := by
  rcases e with ⟨t, attrs⟩
  simp only [getAttrVal, setAttrVal]
  by_cases hb : attrs.any (fun p => p.1 = a)
  · simp only [hb, if_true]
    rw [find?_replace_ne _ _ _ _ h]
  · rw [Bool.not_eq_true] at hb
    simp only [hb, Bool.false_eq_true, if_false]
    rw [List.find?_append]
    have : List.find? (fun p => p.1 = a2) [(a, v)] = none := by
      simp [List.find?_cons, Ne.symm h]
    rw [this, Option.or_none]

theorem tag_setAttrVal (e : Element) (a : String) (v : List Char) :
    (setAttrVal e a v).tag = e.tag := by
  rcases e with ⟨t, attrs⟩
  simp only [setAttrVal]
  by_cases hb : attrs.any (fun p => p.1 = a) <;> simp [hb]

theorem docAttr_isSome_lt (doc : Doc) (i : Nat) (a : String) (v : List Char)
    (h : docAttr doc i a = some v) : i < doc.length := by
  by_contra hc
  push_neg at hc
  rw [docAttr, List.getD_eq_default _ _ hc] at h
  simp [getAttrVal, emptyElem] at h

/-- The slot sequence written by the embedding loop when the framed
bitstring exactly fills the permuted slot list is the whole list. -/
theorem map_range_getD (l : List Slot) :
    (List.range l.length).map (fun i => l.getD i dummySlot) = l := by
  apply List.ext_getElem
  · simp
  · intro i h1 h2
    simp only [List.getElem_map, List.getElem_range]
    simp [List.getD, List.getElem?_eq_getElem h2]

/-- C10: do_capacity invoked with zero path arguments writes the usage tip
to stderr but falls through (the branch lacks a return) and then evaluates
argv[0], raising an uncaught IndexError. -/
theorem capacity_no_args_index_error
    (fs : String → FileContent) (aN : Nat → Nat) (aM : Nat → String → Nat → Nat) :
    do_capacity fs aN aM [] = ⟨true, .error .indexError⟩ := rfl

/-- C6: do_capacity on a readable, valid document prints
floor((slots - 32) / 8); the value is negative for documents with fewer
than 32 slots, and a 40-slot document reports capacity 1. -/
theorem capacity_formula
    (fs : String → FileContent) (aN : Nat → Nat) (aM : Nat → String → Nat → Nat)
    (p : String) (doc : Doc) (n : Nat)
    (hfs : fs p = .valid doc) (hn : n = (get_slots doc aN aM).length) :
    do_capacity fs aN aM [p] = ⟨false, .ok (capacityVal n)⟩ ∧
    capacityVal n = Int.fdiv ((n : Int) - 32) 8 ∧
    (n < 32 → capacityVal n < 0) ∧
    (n = 40 → capacityVal n = 1) := by
  refine ⟨?_, rfl, ?_, ?_⟩
  · simp [do_capacity, hfs, hn]
  · intro h
    interval_cases n <;> decide
  · intro h
    subst h
    decide

/-- C5: do_embed fails (writing the capacity error, CapacityExceeded)
exactly when the framed bitstring is strictly longer than the permuted
slot sequence; on an exact fit it succeeds and the loop writes every slot
of the permuted sequence. -/
theorem embed_capacity_boundary
    (permFn : String → Nat → List Nat) (rs : Nat → Nat)
    (aN : Nat → Nat) (aM : Nat → String → Nat → Nat)
    (key : String) (msg : List Nat) (doc : Doc) (slots : List Slot)
    (hs : slots = applyPerm (permFn key (get_slots doc aN aM).length) (get_slots doc aN aM)) :
    ((do_embed permFn rs aN aM key msg doc).2 = false ↔
      slots.length < (frameBits msg).length) ∧
    ((frameBits msg).length = slots.length →
      do_embed permFn rs aN aM key msg doc = (embedWrites (frameBits msg) slots rs doc, true) ∧
      (List.range (frameBits msg).length).map (fun i => slots.getD i dummySlot) = slots) := by
  have key : do_embed permFn rs aN aM key msg doc =
      if (frameBits msg).length > slots.length then (doc, false)
      else (embedWrites (frameBits msg) slots rs doc, true) := by
    simp only [do_embed, hs]
  constructor
  · by_cases h : slots.length < (frameBits msg).length
    · rw [key, if_pos h]
      simp [h]
    · rw [key, if_neg h]
      simp [h]
  · intro hlen
    have h2 : ¬ ((frameBits msg).length > slots.length) := by omega
    constructor
    · rw [key, if_neg h2]
    · rw [hlen]
      exact map_range_getD slots

/-- C7: when the capacity check fails, do_embed returns before the
embedding loop, so the document is completely unmutated. -/
theorem embed_capacity_failure_no_mutation
    (permFn : String → Nat → List Nat) (rs : Nat → Nat)
    (aN : Nat → Nat) (aM : Nat → String → Nat → Nat)
    (key : String) (msg : List Nat) (doc : Doc) (slots : List Slot)
    (hs : slots = applyPerm (permFn key (get_slots doc aN aM).length) (get_slots doc aN aM))
    (h : slots.length < (frameBits msg).length) :
    (do_embed permFn rs aN aM key msg doc).1 = doc := by
  rw [do_embed, ← hs]
  have : (frameBits msg).length > slots.length := h
  simp [this]

/-! Lemmas about the bit arithmetic of framing and extraction. -/

theorem ofBits_append_single (l : List Nat) (x : Nat) :
    ofBits (l ++ [x]) = 2 * ofBits l + x := by
  simp [ofBits, List.foldl_append]

theorem sum_two_mul (l : List Nat) (g : Nat → Nat) :
    (l.map (fun i => 2 * g i)).sum = 2 * (l.map g).sum := by
  induction l with
  | nil => simp
  | cons x rest ih => simp [ih]; ring

theorem sum_pow_eq_ofBits (m : Nat) (f : Nat → Nat) :
    ((List.range m).map (fun i => 2 ^ (m - 1 - i) * f i)).sum =
      ofBits ((List.range m).map f) := by
  induction m with
  | zero => simp [ofBits]
  | succ k ih =>
    rw [List.range_succ, List.map_append, List.map_append, List.sum_append]
    simp only [List.map_cons, List.map_nil, List.sum_cons, List.sum_nil]
    rw [ofBits_append_single]
    have hk : k + 1 - 1 - k = 0 := by omega
    rw [hk, pow_zero, one_mul]
    have step : (List.range k).map (fun i => 2 ^ (k + 1 - 1 - i) * f i) =
        (List.range k).map (fun i => 2 * (2 ^ (k - 1 - i) * f i)) := by
      apply List.map_congr_left
      intro i hi
      rw [List.mem_range] at hi
      have he : k + 1 - 1 - i = (k - 1 - i) + 1 := by omega
      rw [he, pow_succ]
      ring
    rw [step, sum_two_mul (List.range k) (fun i => 2 ^ (k - 1 - i) * f i), ih]
    omega

/-! Characterization of the header loop of do_extract. -/

theorem headerGo_ok (slots : List Slot) (idxs : List Nat) (acc : Nat)
    (h : ∀ i ∈ idxs, i < slots.length) :
    headerGo slots idxs acc =
      .ok (acc + (idxs.map (fun i => 2 ^ (31 - i) * extract_bit (slots.getD i dummySlot))).sum) := by
  induction idxs generalizing acc with
  | nil => simp [headerGo]
  | cons i rest ih =>
    have hi : i < slots.length := h i (by simp)
    have hsome : slots[i]? = some (slots.getD i dummySlot) := by
      rw [List.getElem?_eq_getElem hi]
      simp [List.getD, List.getElem?_eq_getElem hi]
    rw [headerGo, hsome]
    simp only
    rw [ih _ (fun j hj => h j (List.mem_cons_of_mem _ hj))]
    congr 1
    simp
    ring

theorem headerGo_err (slots : List Slot) (idxs : List Nat) (acc : Nat)
    (h : ∃ i ∈ idxs, slots.length ≤ i) :
    headerGo slots idxs acc = .error .indexError := by
  induction idxs generalizing acc with
  | nil => simp at h
  | cons i rest ih =>
    rcases heq : slots[i]? with _ | s
    · rw [headerGo, heq]
    · rw [headerGo, heq]
      simp only
      apply ih
      obtain ⟨j, hj, hlen⟩ := h
      rcases List.mem_cons.mp hj with hji | hjr
      · exfalso
        subst hji
        have : j < slots.length := by
          by_contra hc
          push_neg at hc
          rw [List.getElem?_eq_none hc] at heq
          exact Option.noConfusion heq
        omega
      · exact ⟨j, hjr, hlen⟩

theorem header_ok32 (slots : List Slot) (h : 32 ≤ slots.length) :
    headerGo slots (List.range 32) 0 = .ok (headerVal slots) := by
  have hall : ∀ i ∈ List.range 32, i < slots.length := by
    intro i hi
    rw [List.mem_range] at hi
    omega
  rw [headerGo_ok slots (List.range 32) 0 hall, headerVal]
  have h2 := sum_pow_eq_ofBits 32 (fun i => extract_bit (slots.getD i dummySlot))
  simp only [show (32 : Nat) - 1 = 31 from rfl] at h2
  exact congrArg Except.ok (by rw [zero_add, h2])

theorem header_err32 (slots : List Slot) (h : slots.length < 32) :
    headerGo slots (List.range 32) 0 = .error .indexError :=
  headerGo_err slots _ 0 ⟨slots.length, List.mem_range.mpr h, le_refl _⟩

/-! Characterization of the reconstruction loop of do_extract. -/

theorem bodyGo_ok (slots : List Slot) (idxs : List Nat) (b cv : Nat) (msg : List Nat)
    (h : ∀ i ∈ idxs, i < slots.length) :
    bodyGo slots idxs b cv msg =
      .ok (assembleGo (idxs.map (fun i => extract_bit (slots.getD i dummySlot))) b cv msg) := by
  induction idxs generalizing b cv msg with
  | nil => simp [bodyGo, assembleGo]
  | cons i rest ih =>
    have hi : i < slots.length := h i (by simp)
    have hsome : slots[i]? = some (slots.getD i dummySlot) := by
      rw [List.getElem?_eq_getElem hi]
      simp [List.getD, List.getElem?_eq_getElem hi]
    rw [bodyGo, hsome]
    simp only [List.map_cons, assembleGo]
    by_cases hb : b = 0
    · simp only [hb, if_true]
      exact ih 7 0 _ (fun j hj => h j (by simp [hj]))
    · simp only [hb, if_false]
      exact ih (b - 1) _ _ (fun j hj => h j (by simp [hj]))

theorem bodyGo_err (slots : List Slot) (idxs : List Nat) (b cv : Nat) (msg : List Nat)
    (h : ∃ i ∈ idxs, slots.length ≤ i) :
    bodyGo slots idxs b cv msg = .error .indexError := by
  induction idxs generalizing b cv msg with
  | nil => simp at h
  | cons i rest ih =>
    rcases heq : slots[i]? with _ | s
    · rw [bodyGo, heq]
    · rw [bodyGo, heq]
      have hrest : ∃ j ∈ rest, slots.length ≤ j := by
        obtain ⟨j, hj, hlen⟩ := h
        rcases List.mem_cons.mp hj with hji | hjr
        · exfalso
          subst hji
          have : j < slots.length := by
            by_contra hc
            push_neg at hc
            rw [List.getElem?_eq_none hc] at heq
            exact Option.noConfusion heq
          omega
        · exact ⟨j, hjr, hlen⟩
      simp only
      by_cases hb : b = 0
      · simp only [hb, if_true]
        exact ih 7 0 _ hrest
      · simp only [hb, if_false]
        exact ih (b - 1) _ _ hrest

/-! Characterization of extractCore by the relation between the declared
length and the number of available slots. -/

theorem extractCore_short (slots : List Slot) (h : slots.length < 32) :
    extractCore slots = .error .indexError := by
  simp only [extractCore, header_err32 slots h]

theorem extractCore_cm (slots : List Slot) (h32 : 32 ≤ slots.length)
    (h : slots.length < headerVal slots) :
    extractCore slots = .error .capacityMismatch := by
  simp only [extractCore, header_ok32 slots h32]
  rw [if_pos h]

theorem extractCore_oob (slots : List Slot) (h32 : 32 ≤ slots.length)
    (hA : headerVal slots ≤ slots.length)
    (hB : slots.length < 32 + headerVal slots) :
    extractCore slots = .error .indexError := by
  simp only [extractCore, header_ok32 slots h32]
  rw [if_neg (by omega : ¬ headerVal slots > slots.length)]
  apply bodyGo_err
  refine ⟨32 + (slots.length - 32), ?_, by omega⟩
  apply List.mem_map.mpr
  exact ⟨slots.length - 32, List.mem_range.mpr (by omega), rfl⟩

theorem extractCore_ok (slots : List Slot)
    (h : 32 + headerVal slots ≤ slots.length) :
    extractCore slots = .ok (assemble (bodyBits slots (headerVal slots))) := by
  have h32 : 32 ≤ slots.length := by omega
  simp only [extractCore, header_ok32 slots h32]
  rw [if_neg (by omega : ¬ headerVal slots > slots.length)]
  rw [bodyGo_ok slots _ 7 0 []
    (by
      intro i hi
      obtain ⟨j, hj, hji⟩ := List.mem_map.mp hi
      rw [List.mem_range] at hj
      omega)]
  congr 1
  rw [assemble, List.map_map]
  congr 1

/-! Lemmas about the pure reconstruction loop. -/

theorem assembleGo_acc (bits : List Nat) :
    ∀ b cv msg, assembleGo bits b cv msg = msg ++ assembleGo bits b cv [] := by
  induction bits with
  | nil => intro b cv msg; simp [assembleGo]
  | cons bit rest ih =>
    intro b cv msg
    by_cases hb : b = 0
    · simp only [assembleGo, hb, if_true]
      rw [ih 7 0 (msg ++ [cv + 2 ^ 0 * bit]), ih 7 0 ([] ++ [cv + 2 ^ 0 * bit])]
      simp
    · simp only [assembleGo, hb, if_false]
      exact ih (b - 1) _ msg

theorem assembleGo_short (bits : List Nat) :
    ∀ b cv msg, bits.length ≤ b → assembleGo bits b cv msg = msg := by
  induction bits with
  | nil => intro b cv msg _; simp [assembleGo]
  | cons bit rest ih =>
    intro b cv msg h
    simp only [List.length_cons] at h
    have hb : ¬ b = 0 := by omega
    simp only [assembleGo, hb, if_false]
    exact ih (b - 1) _ msg (by omega)

theorem assemble_nil_of_short (bits : List Nat) (h : bits.length < 8) :
    assemble bits = [] :=
  assembleGo_short bits 7 0 [] (by omega)

theorem take8_decomp (bits : List Nat) (h : 8 ≤ bits.length) :
    ∃ l rest, bits = l ++ rest ∧ l.length = 8 :=
  ⟨bits.take 8, bits.drop 8, (List.take_append_drop 8 bits).symm,
    by rw [List.length_take]; omega⟩

theorem assembleGo_chunk (l rest msg : List Nat) (hl : l.length = 8) :
    assembleGo (l ++ rest) 7 0 msg = assembleGo rest 7 0 (msg ++ [ofBits l]) := by
  rcases l with _ | ⟨b0, l⟩; · simp at hl
  rcases l with _ | ⟨b1, l⟩; · simp at hl
  rcases l with _ | ⟨b2, l⟩; · simp at hl
  rcases l with _ | ⟨b3, l⟩; · simp at hl
  rcases l with _ | ⟨b4, l⟩; · simp at hl
  rcases l with _ | ⟨b5, l⟩; · simp at hl
  rcases l with _ | ⟨b6, l⟩; · simp at hl
  rcases l with _ | ⟨b7, l⟩; · simp at hl
  have hnil : l = [] := by
    simp only [List.length_cons] at hl
    exact List.length_eq_zero.mp (by omega)
  subst hnil
  simp only [List.cons_append, List.nil_append, assembleGo]
  norm_num
  have hv : 0 + 2 ^ 7 * b0 + 2 ^ 6 * b1 + 2 ^ 5 * b2 + 2 ^ 4 * b3 + 2 ^ 3 * b4 +
      2 ^ 2 * b5 + 2 ^ 1 * b6 + 2 ^ 0 * b7 = ofBits [b0, b1, b2, b3, b4, b5, b6, b7] := by
    simp [ofBits]
    ring
  rw [← hv]
  ring_nf

theorem assemble_chunk (l rest : List Nat) (hl : l.length = 8) :
    assemble (l ++ rest) = ofBits l :: assemble rest := by
  rw [assemble, assembleGo_chunk l rest [] hl, assembleGo_acc]
  simp [assemble]

theorem assemble_length_aux :
    ∀ n, ∀ bits : List Nat, bits.length ≤ n → (assemble bits).length = bits.length / 8 := by
  intro n
  induction n with
  | zero =>
    intro bits h
    have h8 : bits.length < 8 := by omega
    rw [assemble_nil_of_short _ h8]
    simp [Nat.div_eq_of_lt h8]
  | succ k ih =>
    intro bits h
    by_cases h8 : bits.length < 8
    · rw [assemble_nil_of_short _ h8]
      simp [Nat.div_eq_of_lt h8]
    · push_neg at h8
      obtain ⟨l, rest, hsplit, hl⟩ := take8_decomp bits h8
      subst hsplit
      rw [assemble_chunk _ _ hl]
      simp only [List.length_cons]
      rw [ih rest (by simp only [List.length_append] at h; omega)]
      simp only [List.length_append, hl]
      omega

theorem assemble_length (bits : List Nat) :
    (assemble bits).length = bits.length / 8 :=
  assemble_length_aux bits.length bits (le_refl _)

theorem assemble_take_aux :
    ∀ n, ∀ bits : List Nat, bits.length ≤ n →
      assemble (bits.take (8 * (bits.length / 8))) = assemble bits := by
  intro n
  induction n with
  | zero =>
    intro bits h
    have h8 : bits.length < 8 := by omega
    rw [Nat.div_eq_of_lt h8]
    simp only [Nat.mul_zero, List.take_zero]
    rw [assemble_nil_of_short _ h8]
    rfl
  | succ k ih =>
    intro bits h
    by_cases h8 : bits.length < 8
    · rw [Nat.div_eq_of_lt h8]
      simp only [Nat.mul_zero, List.take_zero]
      rw [assemble_nil_of_short _ h8]
      rfl
    · push_neg at h8
      obtain ⟨l, rest, hsplit, hl⟩ := take8_decomp bits h8
      subst hsplit
      have hlen : (l ++ rest).length = 8 + rest.length := by
        simp [List.length_append, hl]
      have hdiv : 8 * ((l ++ rest).length / 8) = 8 + 8 * (rest.length / 8) := by
        rw [hlen]
        omega
      rw [hdiv]
      have htake : (l ++ rest).take (8 + 8 * (rest.length / 8)) =
          l ++ rest.take (8 * (rest.length / 8)) := by
        rw [List.take_append_eq_append_take]
        congr 1
        · exact List.take_of_length_le (by omega)
        · congr 1
          omega
      rw [htake, assemble_chunk _ _ hl, assemble_chunk _ _ hl]
      rw [ih rest (by simp only [List.length_append] at h; omega)]

theorem assemble_take (bits : List Nat) :
    assemble (bits.take (8 * (bits.length / 8))) = assemble bits :=
  assemble_take_aux bits.length bits (le_refl _)

/-! Lemmas about bin, pad and ofBits. -/

theorem binAux_fuel : ∀ f1 f2 n : Nat, n ≤ f1 → n ≤ f2 → binAux f1 n = binAux f2 n := by
  intro f1
  induction f1 with
  | zero =>
    intro f2 n h1 h2
    have hn : n = 0 := by omega
    subst hn
    cases f2 with
    | zero => rfl
    | succ m => simp [binAux]
  | succ k ih =>
    intro f2 n h1 h2
    cases f2 with
    | zero =>
      have hn : n = 0 := by omega
      subst hn
      simp [binAux]
    | succ m =>
      by_cases hn : n < 2
      · simp [binAux, hn]
      · simp only [binAux, hn, if_false]
        rw [ih m (n / 2) (by omega) (by omega)]

theorem bin_eq (n : Nat) : bin n = if n < 2 then [n] else bin (n / 2) ++ [n % 2] := by
  by_cases h : n < 2
  · rw [if_pos h]
    rcases n with _ | _ | m
    · rfl
    · rfl
    · omega
  · rw [if_neg h]
    obtain ⟨m, rfl⟩ : ∃ m, n = m + 1 := ⟨n - 1, by omega⟩
    show binAux (m + 1) (m + 1) = _
    simp only [binAux, h, if_false]
    congr 1
    exact binAux_fuel m ((m + 1) / 2) ((m + 1) / 2) (by omega) (le_refl _)

theorem ofBits_bin (n : Nat) : ofBits (bin n) = n := by
  induction n using Nat.strong_induction_on with
  | _ n ih =>
    rw [bin_eq]
    by_cases h : n < 2
    · rw [if_pos h]
      simp [ofBits]
    · rw [if_neg h, ofBits_append_single, ih (n / 2) (by omega)]
      omega

theorem bin_length_le (n k : Nat) (h : n < 2 ^ k) (hk : 1 ≤ k) : (bin n).length ≤ k := by
  induction n using Nat.strong_induction_on generalizing k with
  | _ n ih =>
    rw [bin_eq]
    by_cases h2 : n < 2
    · simp [h2]
      omega
    · rw [if_neg h2]
      have hk2 : 2 ≤ k := by
        by_contra hc
        have : k = 1 := by omega
        subst this
        simp at h
        omega
      have hpow : 2 ^ k = 2 * 2 ^ (k - 1) := by
        rw [← pow_succ']
        congr 1
        omega
      have hdiv : n / 2 < 2 ^ (k - 1) := by omega
      have := ih (n / 2) (by omega) (k - 1) hdiv (by omega)
      simp only [List.length_append, List.length_cons, List.length_nil]
      omega

theorem pad_length (l : List Nat) (n : Nat) (h : l.length ≤ n) : (pad l n).length = n := by
  simp [pad]
  omega

theorem foldl_replicate_zero (k : Nat) :
    List.foldl (fun a b => 2 * a + b) 0 (List.replicate k 0) = 0 := by
  induction k with
  | zero => rfl
  | succ m ih => simpa [List.replicate_succ] using ih

theorem ofBits_pad (l : List Nat) (n : Nat) : ofBits (pad l n) = ofBits l := by
  rw [pad, ofBits, List.foldl_append, foldl_replicate_zero]
  rfl

/-! Lemmas about the stable insertion sort modelling Python's sorted. -/

theorem insertSorted_perm (le : α → α → Bool) (x : α) (l : List α) :
    (insertSorted le x l).Perm (x :: l) := by
  induction l with
  | nil => exact List.Perm.refl _
  | cons y ys ih =>
    by_cases h : le x y
    · simp [insertSorted, h]
    · simp only [insertSorted, h, if_false]
      exact (ih.cons y).trans (List.Perm.swap x y ys)

theorem isort_perm (le : α → α → Bool) (l : List α) : (isort le l).Perm l := by
  induction l with
  | nil => exact List.Perm.refl _
  | cons x xs ih =>
    exact (insertSorted_perm le x (isort le xs)).trans (ih.cons x)

theorem length_isort (le : α → α → Bool) (l : List α) :
    (isort le l).length = l.length :=
  (isort_perm le l).length_eq

theorem insertSorted_pairwise (le : α → α → Bool)
    (htot : ∀ a b, le a b = true ∨ le b a = true)
    (htrans : ∀ a b c, le a b = true → le b c = true → le a c = true)
    (x : α) (l : List α) (hl : List.Pairwise (fun a b => le a b = true) l) :
    List.Pairwise (fun a b => le a b = true) (insertSorted le x l) := by
  induction l with
  | nil => simp [insertSorted]
  | cons y ys ih =>
    by_cases h : le x y
    · simp only [insertSorted, h, if_true]
      apply List.Pairwise.cons
      · intro z hz
        rcases List.mem_cons.mp hz with hzy | hzys
        · subst hzy; exact h
        · exact htrans x y z h (List.rel_of_pairwise_cons hl hzys)
      · exact hl
    · simp only [insertSorted, h, if_false]
      have hyx : le y x = true := by
        rcases htot x y with h1 | h1
        · exact absurd h1 h
        · exact h1
      apply List.Pairwise.cons
      · intro z hz
        rw [(insertSorted_perm le x ys).mem_iff] at hz
        rcases List.mem_cons.mp hz with hzx | hzys
        · subst hzx; exact hyx
        · exact List.rel_of_pairwise_cons hl hzys
      · exact ih hl.of_cons

theorem isort_pairwise (le : α → α → Bool)
    (htot : ∀ a b, le a b = true ∨ le b a = true)
    (htrans : ∀ a b c, le a b = true → le b c = true → le a c = true)
    (l : List α) : List.Pairwise (fun a b => le a b = true) (isort le l) := by
  induction l with
  | nil => simp [isort]
  | cons x xs ih => exact insertSorted_pairwise le htot htrans x (isort le xs) ih

theorem insertSorted_map (f : α → β) (leA : α → α → Bool) (leB : β → β → Bool)
    (hf : ∀ a b, leB (f a) (f b) = leA a b) (x : α) (l : List α) :
    insertSorted leB (f x) (l.map f) = (insertSorted leA x l).map f := by
  induction l with
  | nil => rfl
  | cons y ys ih =>
    by_cases h : leA x y
    · simp [insertSorted, hf, h]
    · simp [insertSorted, hf, h, ih]

theorem isort_map (f : α → β) (leA : α → α → Bool) (leB : β → β → Bool)
    (hf : ∀ a b, leB (f a) (f b) = leA a b) (l : List α) :
    isort leB (l.map f) = (isort leA l).map f := by
  induction l with
  | nil => rfl
  | cons x xs ih => simp [isort, ih, insertSorted_map f leA leB hf]

/-! Claim theorems about the extraction path. -/

/-- C2 (amended): with at least 32 permuted slots, extraction reads the
first 32 slots as the big-endian bit-length L (headerVal) and fails with
CapacityMismatch exactly when L exceeds the number of slots; when
L + 32 ≤ number of slots it reads the next L bits and groups them into
8-bit MSB-first bytes (assemble). The claim's check L + 32 > slots is not
the one the code performs: see the counterexample. -/
theorem extract_unframe_behavior
    (permFn : String → Nat → List Nat)
    (aN : Nat → Nat) (aM : Nat → String → Nat → Nat)
    (key : String) (doc : Doc) (slots : List Slot) (L : Nat)
    (hs : slots = applyPerm (permFn key (get_slots doc aN aM).length) (get_slots doc aN aM))
    (h32 : 32 ≤ slots.length)
    (hL : L = headerVal slots) :
    (do_extract permFn aN aM key doc = .error .capacityMismatch ↔ slots.length < L) ∧
    (32 + L ≤ slots.length →
      do_extract permFn aN aM key doc = .ok (assemble (bodyBits slots L))) := by
  have hde : do_extract permFn aN aM key doc = extractCore slots := by
    rw [do_extract, hs]
  subst hL
  constructor
  · constructor
    · intro h
      by_contra hc
      push_neg at hc
      by_cases hfit : 32 + headerVal slots ≤ slots.length
      · rw [hde, extractCore_ok _ hfit] at h
        exact Except.noConfusion h
      · push_neg at hfit
        rw [hde, extractCore_oob _ h32 hc (by omega)] at h
        exact ExtractErr.noConfusion (Except.error.inj h)
    · intro h
      rw [hde]
      exact extractCore_cm _ h32 h
  · intro hfit
    rw [hde]
    exact extractCore_ok _ hfit

/-- C2 witness at a concrete document: docG has 40 slots and declares
L = 6, so extraction succeeds and does not report CapacityMismatch. -/
theorem extract_unframe_behavior_witness :
    do_extract idPerm idN idM "k" docG ≠ .error .capacityMismatch ∧
    do_extract idPerm idN idM "k" docG =
      .ok (assemble (bodyBits
        (applyPerm (idPerm "k" (get_slots docG idN idM).length) (get_slots docG idN idM)) 6)) := by
  have h := extract_unframe_behavior idPerm idN idM "k" docG
    (applyPerm (idPerm "k" (get_slots docG idN idM).length) (get_slots docG idN idM)) 6
    rfl (by decide) (by decide)
  constructor
  · intro hc
    have hlt := h.1.mp hc
    have hlen : (applyPerm (idPerm "k" (get_slots docG idN idM).length)
        (get_slots docG idN idM)).length = 40 := by decide
    omega
  · exact h.2 (by decide)

/-- C2 counterexample: docD has exactly 32 slots and its header declares
L = 1, so L + 32 = 33 exceeds the slot count; the claim then demands a
CapacityMismatch failure, but the code checks only L ≤ number of slots
and instead dies with an uncaught IndexError reading slot 32. -/
theorem extract_unframe_cm_counterexample :
    headerVal (applyPerm (idPerm "k" (get_slots docD idN idM).length)
      (get_slots docD idN idM)) = 1 ∧
    (applyPerm (idPerm "k" (get_slots docD idN idM).length)
      (get_slots docD idN idM)).length = 32 ∧
    1 + 32 > 32 ∧
    do_extract idPerm idN idM "k" docD = .error .indexError ∧
    do_extract idPerm idN idM "k" docD ≠ .error .capacityMismatch := by
  refine ⟨by decide, by decide, by omega, by rfl, ?_⟩
  intro h
  rw [show do_extract idPerm idN idM "k" docD = Except.error .indexError from rfl] at h
  exact ExtractErr.noConfusion (Except.error.inj h)

/-- C8: the extraction loop indexes the permuted slot list out of bounds
in the two reachable situations the claim describes: fewer than 32 slots
(header loop), and a declared length L with slots − 32 < L ≤ slots
(reconstruction loop); both surface as an uncaught IndexError. -/
theorem extract_index_error_cases
    (permFn : String → Nat → List Nat)
    (aN : Nat → Nat) (aM : Nat → String → Nat → Nat)
    (key : String) (doc : Doc) (slots : List Slot)
    (hs : slots = applyPerm (permFn key (get_slots doc aN aM).length) (get_slots doc aN aM)) :
    (slots.length < 32 → do_extract permFn aN aM key doc = .error .indexError) ∧
    (32 ≤ slots.length → headerVal slots ≤ slots.length →
      slots.length < 32 + headerVal slots →
      do_extract permFn aN aM key doc = .error .indexError) := by
  have hde : do_extract permFn aN aM key doc = extractCore slots := by
    rw [do_extract, hs]
  constructor
  · intro h
    rw [hde]
    exact extractCore_short _ h
  · intro h32 hA hB
    rw [hde]
    exact extractCore_oob _ h32 hA hB

/-- C8 witness: docC has 31 slots (header read overruns); docD has 32
slots and declares L = 1 (body read overruns). -/
theorem extract_index_error_cases_witness :
    do_extract idPerm idN idM "k" docC = .error .indexError ∧
    do_extract idPerm idN idM "k" docD = .error .indexError := by
  constructor
  · exact (extract_index_error_cases idPerm idN idM "k" docC
      (applyPerm (idPerm "k" (get_slots docC idN idM).length) (get_slots docC idN idM))
      rfl).1 (by decide)
  · exact (extract_index_error_cases idPerm idN idM "k" docD
      (applyPerm (idPerm "k" (get_slots docD idN idM).length) (get_slots docD idN idM))
      rfl).2 (by decide) (by decide) (by decide)

/-- C9: when the declared bit-length L is not a multiple of 8 and the read
fits, extraction succeeds, its result is unchanged if the trailing L mod 8
bits are cut off beforehand (they are silently dropped), and the output
has exactly L / 8 characters. -/
theorem extract_partial_byte_dropped
    (permFn : String → Nat → List Nat)
    (aN : Nat → Nat) (aM : Nat → String → Nat → Nat)
    (key : String) (doc : Doc) (slots : List Slot) (L : Nat)
    (hs : slots = applyPerm (permFn key (get_slots doc aN aM).length) (get_slots doc aN aM))
    (hL : L = headerVal slots)
    (hfit : 32 + L ≤ slots.length)
    (hmod : L % 8 ≠ 0) :
    do_extract permFn aN aM key doc = .ok (assemble (bodyBits slots L)) ∧
    assemble (bodyBits slots L) = assemble ((bodyBits slots L).take (8 * (L / 8))) ∧
    (assemble (bodyBits slots L)).length = L / 8 := by
  have hde : do_extract permFn aN aM key doc = extractCore slots := by
    rw [do_extract, hs]
  have hlen : (bodyBits slots L).length = L := by
    simp [bodyBits]
  subst hL
  refine ⟨?_, ?_, ?_⟩
  · rw [hde]
    exact extractCore_ok _ hfit
  · have := assemble_take (bodyBits slots (headerVal slots))
    rw [hlen] at this
    exact this.symm
  · rw [assemble_length, hlen]

/-- C9 witness: docE has 41 slots and declares L = 9; the ninth body bit
is dropped and the output is a single character. -/
theorem extract_partial_byte_dropped_witness :
    do_extract idPerm idN idM "k" docE =
      .ok (assemble (bodyBits
        (applyPerm (idPerm "k" (get_slots docE idN idM).length) (get_slots docE idN idM)) 9)) ∧
    assemble (bodyBits
        (applyPerm (idPerm "k" (get_slots docE idN idM).length) (get_slots docE idN idM)) 9) =
      assemble ((bodyBits
        (applyPerm (idPerm "k" (get_slots docE idN idM).length) (get_slots docE idN idM)) 9).take
          (8 * (9 / 8))) ∧
    (assemble (bodyBits
        (applyPerm (idPerm "k" (get_slots docE idN idM).length) (get_slots docE idN idM)) 9)).length =
      9 / 8 :=
  extract_partial_byte_dropped idPerm idN idM "k" docE
    (applyPerm (idPerm "k" (get_slots docE idN idM).length) (get_slots docE idN idM)) 9
    rfl (by decide) (by decide) (by decide)

/-- C5 witness: docA has exactly 48 slots and "hi" frames to 48 bits, an
exact fit: embedding succeeds and the loop covers every permuted slot. -/
theorem embed_capacity_boundary_witness :
    (do_embed idPerm (fun _ => 2) idN idM "k" [104, 105] docA).2 ≠ false ∧
    do_embed idPerm (fun _ => 2) idN idM "k" [104, 105] docA =
      (embedWrites (frameBits [104, 105])
        (applyPerm (idPerm "k" (get_slots docA idN idM).length) (get_slots docA idN idM))
        (fun _ => 2) docA, true) ∧
    (List.range (frameBits [104, 105]).length).map
      (fun i => (applyPerm (idPerm "k" (get_slots docA idN idM).length)
        (get_slots docA idN idM)).getD i dummySlot) =
      applyPerm (idPerm "k" (get_slots docA idN idM).length) (get_slots docA idN idM) := by
  have h := embed_capacity_boundary idPerm (fun _ => 2) idN idM "k" [104, 105] docA
    (applyPerm (idPerm "k" (get_slots docA idN idM).length) (get_slots docA idN idM)) rfl
  have hlen : (frameBits [104, 105]).length =
      (applyPerm (idPerm "k" (get_slots docA idN idM).length)
        (get_slots docA idN idM)).length := by decide
  have h2 := h.2 hlen
  refine ⟨?_, h2.1, h2.2⟩
  intro hf
  have := h.1.mp hf
  omega

/-- C6 witness: a 40-slot cover reports capacity 1. -/
theorem capacity_formula_witness :
    do_capacity (fun _ => FileContent.valid docF) idN idM ["cover.svg"] =
      ⟨false, .ok (capacityVal 40)⟩ ∧
    capacityVal 40 = 1 := by
  have h := capacity_formula (fun _ => FileContent.valid docF) idN idM "cover.svg" docF 40
    rfl (by decide)
  exact ⟨h.1, h.2.2.2 rfl⟩

/-- C7 witness: docB has 47 slots, one too few for "hi"; the document
comes back untouched. -/
theorem embed_capacity_failure_no_mutation_witness :
    (do_embed idPerm (fun _ => 2) idN idM "k" [104, 105] docB).1 = docB :=
  embed_capacity_failure_no_mutation idPerm (fun _ => 2) idN idM "k" [104, 105] docB
    (applyPerm (idPerm "k" (get_slots docB idN idM).length) (get_slots docB idN idM))
    rfl (by decide)

/-! Characterization of embed_bit: the splice is a single-character update. -/

theorem splice_eq_set (v : List Char) (st sp : Nat) (c : Char)
    (h1 : st < sp) (h2 : sp ≤ v.length) :
    v.take st ++ (((v.drop st).take (sp - st)).dropLast ++ [c]) ++ v.drop sp =
      v.set (sp - 1) c := by
  have hlen : ((v.drop st).take (sp - st)).length = sp - st := by
    rw [List.length_take, List.length_drop]
    omega
  rw [List.dropLast_eq_take, hlen, List.take_take]
  have hmin : (sp - st - 1) ⊓ (sp - st) = sp - st - 1 := by omega
  rw [hmin]
  have hsum : st + (sp - st - 1) = sp - 1 := by omega
  have htake : v.take (sp - 1) = v.take st ++ (v.drop st).take (sp - st - 1) := by
    rw [← List.take_add, hsum]
  rw [List.set_eq_take_append_cons_drop, if_pos (by omega : sp - 1 < v.length)]
  have hsp : sp - 1 + 1 = sp := by omega
  rw [hsp, htake]
  simp [List.append_assoc]

theorem embed_bit_spec (bit r : Nat) (sl : Slot) (doc : Doc) (v : List Char)
    (hv : docAttr doc sl.nodeIdx sl.attr = some v)
    (h1 : sl.start < sl.stop) (h2 : sl.stop ≤ v.length) :
    embed_bit bit r sl doc =
      doc.set sl.nodeIdx (setAttrVal (doc.getD sl.nodeIdx emptyElem) sl.attr
        (v.set (sl.stop - 1) (Char.ofNat (48 + (2 * r + bit))))) := by
  have hg : getAttrVal (doc.getD sl.nodeIdx emptyElem) sl.attr = some v := hv
  simp only [embed_bit, hg, Option.getD_some]
  congr 1
  congr 1
  exact splice_eq_set v sl.start sl.stop _ h1 h2

/-- Reading back the attribute just written by a set at the same index. -/
theorem docAttr_set_same (doc : Doc) (i : Nat) (a : String) (w : List Char)
    (hp : (docAttr doc i a).isSome) (hi : i < doc.length) :
    docAttr (doc.set i (setAttrVal (doc.getD i emptyElem) a w)) i a = some w := by
  rw [docAttr]
  have hgd : (doc.set i (setAttrVal (doc.getD i emptyElem) a w)).getD i emptyElem =
      setAttrVal (doc.getD i emptyElem) a w := by
    simp [List.getD, List.getElem?_set, hi]
  rw [hgd]
  exact getAttrVal_setAttrVal_same _ _ _ hp

/-- A set at (i, a) does not change any other (element, attribute) read. -/
theorem docAttr_set_other (doc : Doc) (i : Nat) (a : String) (w : List Char)
    (j : Nat) (b : String) (hne : j ≠ i ∨ b ≠ a) :
    docAttr (doc.set i (setAttrVal (doc.getD i emptyElem) a w)) j b = docAttr doc j b := by
  by_cases hj : j = i
  · subst hj
    have hb : b ≠ a := by
      rcases hne with h | h
      · exact absurd rfl h
      · exact h
    rw [docAttr, docAttr]
    by_cases hi : j < doc.length
    · have hgd : (doc.set j (setAttrVal (doc.getD j emptyElem) a w)).getD j emptyElem =
          setAttrVal (doc.getD j emptyElem) a w := by
        simp [List.getD, List.getElem?_set, hi]
      rw [hgd]
      exact getAttrVal_setAttrVal_ne _ _ _ _ hb
    · push_neg at hi
      rw [List.set_eq_of_length_le (by omega)]
  · rw [docAttr, docAttr]
    have hgd : (doc.set i (setAttrVal (doc.getD i emptyElem) a w)).getD j emptyElem =
        doc.getD j emptyElem := by
      simp [List.getD, List.getElem?_set, Ne.symm hj]
    rw [hgd]

/-- Tags are untouched by embed_bit's set. -/
theorem tag_docAttr_set (doc : Doc) (i : Nat) (a : String) (w : List Char) (j : Nat) :
    ((doc.set i (setAttrVal (doc.getD i emptyElem) a w)).getD j emptyElem).tag =
      (doc.getD j emptyElem).tag := by
  by_cases hj : j = i
  · subst hj
    by_cases hi : j < doc.length
    · simp [List.getD, List.getElem?_set, hi, tag_setAttrVal]
    · push_neg at hi
      rw [List.set_eq_of_length_le (by omega)]
  · simp [List.getD, List.getElem?_set, Ne.symm hj]

/-- C4: embed_bit writes the digit 2*r + bit, which lies in {2,4,6,8} for
bit = 0 and {3,5,7,9} for bit = 1 (0 and 1 are impossible), changes only
the final character of the literal's span, preserves the value's length
(hence the literal's length and its untouched integer part), and the
parity of the written digit equals the embedded bit. -/
theorem embed_bit_format_preserving (bit r : Nat) (sl : Slot) (doc : Doc) (v : List Char)
    (hv : docAttr doc sl.nodeIdx sl.attr = some v)
    (h1 : sl.start < sl.stop) (h2 : sl.stop ≤ v.length)
    (hr1 : 1 ≤ r) (hr4 : r ≤ 4) (hbit : bit ≤ 1) :
    docAttr (embed_bit bit r sl doc) sl.nodeIdx sl.attr =
      some (v.set (sl.stop - 1) (Char.ofNat (48 + (2 * r + bit)))) ∧
    (v.set (sl.stop - 1) (Char.ofNat (48 + (2 * r + bit)))).length = v.length ∧
    (∀ p, p ≠ sl.stop - 1 →
      (v.set (sl.stop - 1) (Char.ofNat (48 + (2 * r + bit))))[p]? = v[p]?) ∧
    (v.set (sl.stop - 1) (Char.ofNat (48 + (2 * r + bit))))[sl.stop - 1]? =
      some (Char.ofNat (48 + (2 * r + bit))) ∧
    (bit = 0 → (2 * r + bit) ∈ ([2, 4, 6, 8] : List Nat)) ∧
    (bit = 1 → (2 * r + bit) ∈ ([3, 5, 7, 9] : List Nat)) ∧
    (2 * r + bit) % 2 = bit % 2 := by
  have hi : sl.nodeIdx < doc.length := docAttr_isSome_lt doc sl.nodeIdx sl.attr v hv
  refine ⟨?_, by simp, ?_, ?_, ?_, ?_, by omega⟩
  · rw [embed_bit_spec bit r sl doc v hv h1 h2]
    exact docAttr_set_same doc sl.nodeIdx sl.attr _ (by rw [hv]; rfl) hi
  · intro p hp
    rw [List.getElem?_set]
    simp [Ne.symm hp]
  · rw [List.getElem?_set]
    simp [show sl.stop - 1 < v.length by omega]
  · intro hb
    subst hb
    interval_cases r <;> decide
  · intro hb
    subst hb
    interval_cases r <;> decide

/-- C4 witness at a concrete slot of docA. -/
theorem embed_bit_format_preserving_witness :
    docAttr (embed_bit 1 2 ⟨0, "d", sChars (mkFloats 48), 0, 3⟩ docA) 0 "d" =
      some ((sChars (mkFloats 48)).set 2 (Char.ofNat 53)) ∧
    ((sChars (mkFloats 48)).set 2 (Char.ofNat 53)).length = (sChars (mkFloats 48)).length ∧
    (2 * 2 + 1) ∈ ([3, 5, 7, 9] : List Nat) ∧
    (2 * 2 + 1) % 2 = 1 % 2 := by
  have h := embed_bit_format_preserving 1 2 ⟨0, "d", sChars (mkFloats 48), 0, 3⟩ docA
    (sChars (mkFloats 48)) (by decide) (by decide) (by decide) (by decide) (by decide) (by decide)
  exact ⟨h.1, h.2.1, h.2.2.2.2.2.1 rfl, h.2.2.2.2.2.2⟩

/-! Order facts about the character-wise string comparison. -/

theorem char_toNat_inj (a b : Char) (h : a.toNat = b.toNat) : a = b :=
  Char.ext (UInt32.ext h)

theorem strLT_irrefl : ∀ as, strLT as as = false := by
  intro as
  induction as with
  | nil => rfl
  | cons a as ih => simp [strLT, ih]

theorem strLT_asymm : ∀ as bs, strLT as bs = true → strLT bs as = false := by
  intro as
  induction as with
  | nil =>
    intro bs h
    cases bs with
    | nil => simp [strLT] at h
    | cons b bs => rfl
  | cons a as ih =>
    intro bs h
    cases bs with
    | nil => simp [strLT] at h
    | cons b bs =>
      by_cases h1 : a.toNat < b.toNat
      · simp [strLT, show ¬ b.toNat < a.toNat by omega, h1]
      · by_cases h2 : b.toNat < a.toNat
        · simp [strLT, h1, h2] at h
        · simp only [strLT, h1, h2, if_false] at h
          simp [strLT, h1, h2, ih bs h]

theorem strLT_trans : ∀ as bs cs, strLT as bs = true → strLT bs cs = true →
    strLT as cs = true := by
  intro as
  induction as with
  | nil =>
    intro bs cs h1 h2
    cases bs with
    | nil => simp [strLT] at h1
    | cons b bs =>
      cases cs with
      | nil => simp [strLT] at h2
      | cons c cs => rfl
  | cons a as ih =>
    intro bs cs h1 h2
    cases bs with
    | nil => simp [strLT] at h1
    | cons b bs =>
      cases cs with
      | nil => simp [strLT] at h2
      | cons c cs =>
        by_cases hab : a.toNat < b.toNat
        · by_cases hbc : b.toNat < c.toNat
          · simp [strLT, show a.toNat < c.toNat by omega]
          · by_cases hcb : c.toNat < b.toNat
            · simp [strLT, hbc, hcb] at h2
            · simp [strLT, show a.toNat < c.toNat by omega]
        · by_cases hba : b.toNat < a.toNat
          · simp [strLT, hab, hba] at h1
          · by_cases hbc : b.toNat < c.toNat
            · simp [strLT, show a.toNat < c.toNat by omega]
            · by_cases hcb : c.toNat < b.toNat
              · simp [strLT, hbc, hcb] at h2
              · simp only [strLT, hab, hba, if_false] at h1
                simp only [strLT, hbc, hcb, if_false] at h2
                simp [strLT, show ¬ a.toNat < c.toNat by omega,
                  show ¬ c.toNat < a.toNat by omega, ih bs cs h1 h2]

theorem strLT_eq : ∀ as bs, strLT as bs = false → strLT bs as = false → as = bs := by
  intro as
  induction as with
  | nil =>
    intro bs h1 h2
    cases bs with
    | nil => rfl
    | cons b bs => simp [strLT] at h1
  | cons a as ih =>
    intro bs h1 h2
    cases bs with
    | nil => simp [strLT] at h2
    | cons b bs =>
      by_cases hab : a.toNat < b.toNat
      · simp [strLT, hab] at h1
      · by_cases hba : b.toNat < a.toNat
        · simp [strLT, hba] at h2
        · simp only [strLT, hab, hba, if_false] at h1 h2
          have hc : a = b := char_toNat_inj a b (by omega)
          rw [hc, ih bs h1 h2]

/-! Order facts about the triple comparison tripLE. -/

theorem tripLE_iff (x y : Nat × String × Nat) : tripLE x y = true ↔
    (x.1 < y.1 ∨ (x.1 = y.1 ∧ (strLTs x.2.1 y.2.1 = true ∨
      (x.2.1 = y.2.1 ∧ x.2.2 ≤ y.2.2)))) := by
  rw [tripLE]
  split_ifs with h1 h2 h3 h4
  · simp [h1]
  · simp only [Bool.false_eq_true, false_iff]
    intro hc
    rcases hc with hc | ⟨hc, _⟩
    · exact h1 hc
    · omega
  · simp only [true_iff]
    exact Or.inr ⟨by omega, Or.inl h3⟩
  · simp only [Bool.false_eq_true, false_iff]
    intro hc
    rcases hc with hc | ⟨hc, hd⟩
    · exact h1 hc
    · rcases hd with hd | ⟨hd, _⟩
      · rw [hd] at h3
        exact h3 rfl
      · rw [hd] at h4
        rw [strLTs, strLT_irrefl] at h4
        exact Bool.noConfusion h4
  · have heq : x.2.1 = y.2.1 := by
      apply String.ext
      apply strLT_eq
      · exact Bool.not_eq_true _ ▸ (by simpa [strLTs] using h3)
      · exact Bool.not_eq_true _ ▸ (by simpa [strLTs] using h4)
    constructor
    · intro h
      exact Or.inr ⟨by omega, Or.inr ⟨heq, by simpa using h⟩⟩
    · intro h
      rcases h with h | ⟨_, hd⟩
      · omega
      · rcases hd with hd | ⟨_, hd⟩
        · rw [heq] at hd
          rw [strLTs, strLT_irrefl] at hd
          exact Bool.noConfusion hd
        · simpa using hd

theorem tripLE_total (x y : Nat × String × Nat) :
    tripLE x y = true ∨ tripLE y x = true := by
  rcases Nat.lt_trichotomy x.1 y.1 with h | h | h
  · exact Or.inl ((tripLE_iff x y).mpr (Or.inl h))
  · by_cases h3 : strLTs x.2.1 y.2.1 = true
    · exact Or.inl ((tripLE_iff x y).mpr (Or.inr ⟨h, Or.inl h3⟩))
    · by_cases h4 : strLTs y.2.1 x.2.1 = true
      · exact Or.inr ((tripLE_iff y x).mpr (Or.inr ⟨h.symm, Or.inl h4⟩))
      · have heq : x.2.1 = y.2.1 := by
          apply String.ext
          apply strLT_eq
          · exact Bool.not_eq_true _ ▸ (by simpa [strLTs] using h3)
          · exact Bool.not_eq_true _ ▸ (by simpa [strLTs] using h4)
        rcases Nat.le_total x.2.2 y.2.2 with h5 | h5
        · exact Or.inl ((tripLE_iff x y).mpr (Or.inr ⟨h, Or.inr ⟨heq, h5⟩⟩))
        · exact Or.inr ((tripLE_iff y x).mpr (Or.inr ⟨h.symm, Or.inr ⟨heq.symm, h5⟩⟩))
  · exact Or.inr ((tripLE_iff y x).mpr (Or.inl h))

theorem tripLE_trans (x y z : Nat × String × Nat)
    (h1 : tripLE x y = true) (h2 : tripLE y z = true) : tripLE x z = true := by
  rw [tripLE_iff] at h1 h2 ⊢
  rcases h1 with h1 | ⟨h1e, h1s⟩
  · rcases h2 with h2 | ⟨h2e, _⟩
    · exact Or.inl (by omega)
    · exact Or.inl (by omega)
  · rcases h2 with h2 | ⟨h2e, h2s⟩
    · exact Or.inl (by omega)
    · refine Or.inr ⟨by omega, ?_⟩
      rcases h1s with h1s | ⟨h1seq, h1n⟩
      · rcases h2s with h2s | ⟨h2seq, _⟩
        · exact Or.inl (strLT_trans _ _ _ h1s h2s)
        · exact Or.inl (h2seq ▸ h1s)
      · rcases h2s with h2s | ⟨h2seq, h2n⟩
        · exact Or.inl (h1seq ▸ h2s)
        · exact Or.inr ⟨h1seq.trans h2seq, by omega⟩

theorem canonLE_total (s t : Slot) : canonLE s t = true ∨ canonLE t s = true :=
  tripLE_total (canonKey s) (canonKey t)

theorem canonLE_trans (s t u : Slot) (h1 : canonLE s t = true) (h2 : canonLE t u = true) :
    canonLE s u = true :=
  tripLE_trans (canonKey s) (canonKey t) (canonKey u) h1 h2

/-- C3: when object identities are assigned in document order (CPython's
allocation order for a fresh parse: aN strictly increasing in the document
index, aM strictly increasing in the match start within one attribute),
get_slots returns exactly the canonical slot sequence — discovery sorted
by (element document-order index, attribute name, literal start offset) —
and discovery is deterministic: any two runs whose identities satisfy this
invariant return the identical sequence, which is sorted by the canonical
key. -/
theorem get_slots_canonical_core (doc : Doc) (aN : Nat → Nat) (aM : Nat → String → Nat → Nat)
    (hN : ∀ i j, i < j → aN i < aN j)
    (hM : ∀ n a s t, s < t → aM n a s < aM n a t) :
    get_slots doc aN aM = canonSlots doc ∧
    List.Pairwise (fun s t => canonLE s t = true) (canonSlots doc) := by
  have hNeq : ∀ i j, aN i = aN j ↔ i = j := by
    intro i j
    constructor
    · intro h
      by_contra hc
      rcases Nat.lt_or_ge i j with h2 | h2
      · have := hN i j h2
        omega
      · have h3 : j < i := by omega
        have := hN j i h3
        omega
    · intro h
      rw [h]
  have hNiff : ∀ i j, aN i < aN j ↔ i < j := by
    intro i j
    constructor
    · intro h
      by_contra hc
      push_neg at hc
      rcases Nat.eq_or_lt_of_le hc with h2 | h2
      · rw [h2] at h
        omega
      · have := hN j i h2
        omega
    · exact hN i j
  have hfun : nodeLE aN = natLEB := by
    funext i j
    unfold nodeLE natLEB
    apply decide_eq_decide.mpr
    constructor
    · intro h
      by_contra hc
      push_neg at hc
      have := hN j i hc
      omega
    · intro h
      rcases Nat.eq_or_lt_of_le h with h2 | h2
      · rw [h2]
      · exact Nat.le_of_lt (hN i j h2)
  have hslot : slotLE aN aM = canonLE := by
    funext s t
    unfold slotLE canonLE pyKey canonKey
    apply Bool.eq_iff_iff.mpr
    rw [tripLE_iff, tripLE_iff]
    dsimp only
    constructor
    · rintro (h | ⟨heq, hs⟩)
      · exact Or.inl ((hNiff _ _).mp h)
      · refine Or.inr ⟨(hNeq _ _).mp heq, ?_⟩
        rcases hs with hs | ⟨hseq, hle⟩
        · exact Or.inl hs
        · refine Or.inr ⟨hseq, ?_⟩
          have hnn : s.nodeIdx = t.nodeIdx := (hNeq _ _).mp heq
          rw [← hnn, ← hseq] at hle
          by_contra hc
          push_neg at hc
          have := hM s.nodeIdx s.attr t.start s.start hc
          omega
    · rintro (h | ⟨heq, hs⟩)
      · exact Or.inl (hN _ _ h)
      · refine Or.inr ⟨by rw [heq], ?_⟩
        rcases hs with hs | ⟨hseq, hle⟩
        · exact Or.inl hs
        · refine Or.inr ⟨hseq, ?_⟩
          rw [← heq, ← hseq]
          rcases Nat.eq_or_lt_of_le hle with h2 | h2
          · rw [h2]
          · exact Nat.le_of_lt (hM _ _ _ _ h2)
  constructor
  · rw [get_slots, get_nodes, hfun, hslot]
    rfl
  · exact isort_pairwise canonLE canonLE_total canonLE_trans _

/-- C3: slot discovery returns the list sorted by the canonical key and is
deterministic across repeated runs, whenever object identities follow
document order (the CPython allocation behavior that the code's sorted()
calls rely on). -/
theorem get_slots_canonical (doc : Doc) (aN : Nat → Nat) (aM : Nat → String → Nat → Nat)
    (hN : ∀ i j, i < j → aN i < aN j)
    (hM : ∀ n a s t, s < t → aM n a s < aM n a t) :
    get_slots doc aN aM = canonSlots doc ∧
    List.Pairwise (fun s t => canonLE s t = true) (canonSlots doc) :=
  get_slots_canonical_core doc aN aM hN hM

/-- C3 witness: identity addresses are document-ordered; on docH the
discovered sequence equals the canonical one and is canonically sorted. -/
theorem get_slots_canonical_witness :
    get_slots docH idN idM = canonSlots docH ∧
    List.Pairwise (fun s t => canonLE s t = true) (canonSlots docH) :=
  get_slots_canonical docH idN idM (fun i j h => h) (fun _ _ s t h => h)

/-! Framing lemmas: shape of the bitstring built by do_embed. -/

theorem bin_mem_le_one (n : Nat) : ∀ x ∈ bin n, x ≤ 1 := by
  induction n using Nat.strong_induction_on with
  | _ n ih =>
    rw [bin_eq]
    by_cases h : n < 2
    · rw [if_pos h]
      intro x hx
      simp at hx
      omega
    · rw [if_neg h]
      intro x hx
      rcases List.mem_append.mp hx with hx | hx
      · exact ih (n / 2) (by omega) x hx
      · simp at hx
        omega

theorem pad_mem_le_one (l : List Nat) (n : Nat) (h : ∀ x ∈ l, x ≤ 1) :
    ∀ x ∈ pad l n, x ≤ 1 := by
  intro x hx
  rcases List.mem_append.mp hx with hx | hx
  · rw [List.eq_of_mem_replicate hx]
    omega
  · exact h x hx

theorem byteBits_length (b : Nat) (hb : b < 256) : (pad (bin b) 8).length = 8 :=
  pad_length _ _ (bin_length_le b 8 (by omega) (by omega))

theorem flat_body_length (msg : List Nat) (h : ∀ b ∈ msg, b < 256) :
    (msg.flatMap (fun b => pad (bin b) 8)).length = 8 * msg.length := by
  induction msg with
  | nil => simp
  | cons b rest ih =>
    rw [List.flatMap_cons, List.length_append,
      byteBits_length b (h b (by simp)), ih (fun x hx => h x (by simp [hx]))]
    simp
    ring

theorem frameBits_decomp (msg : List Nat) (h : ∀ b ∈ msg, b < 256) :
    frameBits msg = pad (bin (8 * msg.length)) 32 ++ msg.flatMap (fun b => pad (bin b) 8) := by
  rw [frameBits]
  rw [flat_body_length msg h]

theorem frameBits_length (msg : List Nat) (h : ∀ b ∈ msg, b < 256)
    (h2 : 8 * msg.length < 2 ^ 32) :
    (frameBits msg).length = 32 + 8 * msg.length := by
  rw [frameBits_decomp msg h, List.length_append,
    pad_length _ _ (bin_length_le _ 32 h2 (by omega)), flat_body_length msg h]

theorem frameBits_mem_le_one (msg : List Nat) : ∀ x ∈ frameBits msg, x ≤ 1 := by
  rw [frameBits]
  intro x hx
  rcases List.mem_append.mp hx with hx | hx
  · exact pad_mem_le_one _ _ (bin_mem_le_one _) x hx
  · obtain ⟨b, _, hxb⟩ := List.mem_flatMap.mp hx
    exact pad_mem_le_one _ _ (bin_mem_le_one _) x hxb

theorem frameBits_take_header (msg : List Nat) (h : ∀ b ∈ msg, b < 256)
    (h2 : 8 * msg.length < 2 ^ 32) :
    (frameBits msg).take 32 = pad (bin (8 * msg.length)) 32 := by
  have h3 : (pad (bin (8 * msg.length)) 32).length = 32 :=
    pad_length _ _ (bin_length_le _ 32 h2 (by omega))
  rw [frameBits_decomp msg h, List.take_append_eq_append_take, h3]
  simp [List.take_of_length_le (le_of_eq h3)]

theorem frameBits_drop_body (msg : List Nat) (h : ∀ b ∈ msg, b < 256)
    (h2 : 8 * msg.length < 2 ^ 32) :
    (frameBits msg).drop 32 = msg.flatMap (fun b => pad (bin b) 8) := by
  have h3 : (pad (bin (8 * msg.length)) 32).length = 32 :=
    pad_length _ _ (bin_length_le _ 32 h2 (by omega))
  rw [frameBits_decomp msg h, List.drop_append_eq_append_drop, h3]
  simp [List.drop_eq_nil_of_le (le_of_eq h3)]

theorem ofBits_header (msg : List Nat) (h2 : 8 * msg.length < 2 ^ 32) :
    ofBits (pad (bin (8 * msg.length)) 32) = 8 * msg.length := by
  rw [ofBits_pad, ofBits_bin]

/-- The reconstruction loop inverts the framing of the payload bytes. -/
theorem assemble_flat (msg : List Nat) (h : ∀ b ∈ msg, b < 256) :
    assemble (msg.flatMap (fun b => pad (bin b) 8)) = msg := by
  induction msg with
  | nil => rfl
  | cons b rest ih =>
    rw [List.flatMap_cons, assemble_chunk _ _ (byteBits_length b (h b (by simp))),
      ofBits_pad, ofBits_bin, ih (fun x hx => h x (by simp [hx]))]

/-! The regex scan depends only on character classes (digit / dot / other),
and its spans are in range, disjoint, and end on a digit. -/

theorem isDig_dot : isDig '.' = false := by decide

theorem charClass_isDig (c d : Char) (h : charClass c = charClass d) :
    isDig c = isDig d := by
  by_cases h1 : isDig c = true <;> by_cases h2 : isDig d = true
  · rw [h1, h2]
  · exfalso
    rw [charClass, charClass, if_pos h1, if_neg h2] at h
    split_ifs at h <;> omega
  · exfalso
    rw [charClass, charClass, if_neg h1, if_pos h2] at h
    split_ifs at h <;> omega
  · rw [Bool.not_eq_true] at h1 h2
    rw [h1, h2]

theorem charClass_dot_iff (c d : Char) (h : charClass c = charClass d) :
    c = '.' ↔ d = '.' := by
  have hdig : ¬ (isDig '.' = true) := by rw [isDig_dot]; exact Bool.noConfusion
  constructor
  · intro hc
    subst hc
    rw [charClass, charClass, if_neg hdig, if_pos rfl] at h
    by_cases h1 : isDig d = true
    · rw [if_pos h1] at h
      omega
    · rw [if_neg h1] at h
      by_cases h2 : d = '.'
      · exact h2
      · rw [if_neg h2] at h
        omega
  · intro hd
    subst hd
    rw [charClass, charClass, if_neg hdig, if_pos rfl] at h
    by_cases h1 : isDig c = true
    · rw [if_pos h1] at h
      omega
    · rw [if_neg h1] at h
      by_cases h2 : c = '.'
      · exact h2
      · rw [if_neg h2] at h
        omega

theorem digCount_class (v1 : List Char) : ∀ v2 : List Char,
    v1.map charClass = v2.map charClass → digCount v1 = digCount v2 := by
  induction v1 with
  | nil =>
    intro v2 h
    cases v2 with
    | nil => rfl
    | cons b bs => simp at h
  | cons a as ih =>
    intro v2 h
    cases v2 with
    | nil => simp at h
    | cons b bs =>
      simp only [List.map_cons, List.cons.injEq] at h
      have hd := charClass_isDig a b h.1
      by_cases ha : isDig a = true
      · have hb : isDig b = true := by rw [← hd]; exact ha
        simp only [digCount, List.takeWhile_cons, ha, hb, if_true, List.length_cons]
        have := ih bs h.2
        rw [digCount, digCount] at this
        omega
      · have hb : ¬ isDig b = true := by rw [← hd]; exact ha
        simp [digCount, List.takeWhile_cons, ha, hb]

theorem matchAt_class (v1 v2 : List Char)
    (h : v1.map charClass = v2.map charClass) : matchAt v1 = matchAt v2 := by
  have hd1 : digCount v1 = digCount v2 := digCount_class v1 v2 h
  simp only [matchAt]
  rw [← hd1]
  by_cases h0 : digCount v1 = 0
  · simp [h0]
  · simp only [h0, if_false]
    have hdrop : (v1.drop (digCount v1)).map charClass =
        (v2.drop (digCount v1)).map charClass := by
      rw [List.map_drop, List.map_drop, h]
    rcases hA : v1.drop (digCount v1) with _ | ⟨c1, r1⟩ <;>
      rcases hB : v2.drop (digCount v1) with _ | ⟨c2, r2⟩
    · rfl
    · rw [hA, hB] at hdrop
      simp at hdrop
    · rw [hA, hB] at hdrop
      simp at hdrop
    · rw [hA, hB] at hdrop
      simp only [List.map_cons, List.cons.injEq] at hdrop
      have hdot := charClass_dot_iff c1 c2 hdrop.1
      have hr : digCount r1 = digCount r2 := digCount_class r1 r2 hdrop.2
      dsimp only
      by_cases hc : c1 = '.'
      · have hc2 : c2 = '.' := hdot.mp hc
        rw [if_pos hc, if_pos hc2, hr]
      · have hc2 : ¬ c2 = '.' := fun hx => hc (hdot.mpr hx)
        rw [if_neg hc, if_neg hc2]

theorem finditerGo_class : ∀ (fuel : Nat) (v1 v2 : List Char) (pos : Nat),
    v1.map charClass = v2.map charClass →
    finditerGo fuel v1 pos = finditerGo fuel v2 pos := by
  intro fuel
  induction fuel with
  | zero => intro v1 v2 pos _; rfl
  | succ f ih =>
    intro v1 v2 pos h
    cases v1 with
    | nil =>
      cases v2 with
      | nil => rfl
      | cons b bs => simp at h
    | cons c1 r1 =>
      cases v2 with
      | nil => simp at h
      | cons c2 r2 =>
        have hm := matchAt_class (c1 :: r1) (c2 :: r2) h
        simp only [List.map_cons, List.cons.injEq] at h
        rw [finditerGo, finditerGo, ← hm]
        rcases hA : matchAt (c1 :: r1) with _ | len
        · exact ih r1 r2 (pos + 1) h.2
        · simp only
          congr 1
          apply ih
          rw [List.map_drop, List.map_drop, h.2]

theorem finditer_class (v1 v2 : List Char)
    (h : v1.map charClass = v2.map charClass) : finditer v1 = finditer v2 := by
  have hlen : v1.length = v2.length := by
    have := congrArg List.length h
    simpa using this
  rw [finditer, finditer, hlen]
  exact finditerGo_class v2.length v1 v2 0 h

theorem takeWhile_getElem (p : Char → Bool) (l : List Char) :
    ∀ i, i < (l.takeWhile p).length → ∃ c, l[i]? = some c ∧ p c = true := by
  induction l with
  | nil => intro i h; simp at h
  | cons a as ih =>
    intro i h
    by_cases hp : p a = true
    · rw [List.takeWhile_cons, if_pos hp] at h
      cases i with
      | zero => exact ⟨a, by simp, hp⟩
      | succ j =>
        simp only [List.length_cons] at h
        obtain ⟨c, hc, hpc⟩ := ih j (by omega)
        exact ⟨c, by simpa using hc, hpc⟩
    · rw [List.takeWhile_cons, if_neg hp] at h
      simp at h

theorem matchAt_sound (cs : List Char) (len : Nat) (h : matchAt cs = some len) :
    1 ≤ len ∧ len ≤ cs.length ∧ ∃ c, cs[len - 1]? = some c ∧ isDig c = true := by
  simp only [matchAt] at h
  by_cases h0 : digCount cs = 0
  · simp [h0] at h
  · simp only [h0, if_false] at h
    rcases hA : cs.drop (digCount cs) with _ | ⟨c, rest2⟩
    · rw [hA] at h
      exact Option.noConfusion h
    · rw [hA] at h
      dsimp only at h
      by_cases hc : c = '.'
      · rw [if_pos hc] at h
        by_cases h2 : digCount rest2 = 0
        · simp [h2] at h
        · simp only [h2, if_false, Option.some.injEq] at h
          have hd1le : digCount cs ≤ cs.length := by
            rw [digCount]
            exact (List.takeWhile_sublist _).length_le
          have hlen2 : cs.length = digCount cs + 1 + rest2.length := by
            have hx := congrArg List.length hA
            rw [List.length_drop] at hx
            simp at hx
            omega
          have hd2le : digCount rest2 ≤ rest2.length := by
            rw [digCount]
            exact (List.takeWhile_sublist _).length_le
          obtain ⟨d, hd, hdd⟩ := takeWhile_getElem isDig rest2 (digCount rest2 - 1)
            (by rw [← digCount]; omega)
          refine ⟨by omega, by omega, d, ?_, hdd⟩
          have hdrop : cs.drop (digCount cs + 1) = rest2 := by
            have hx : List.drop 1 (cs.drop (digCount cs)) = rest2 := by
              rw [hA]
              rfl
            rw [List.drop_drop] at hx
            simpa [Nat.add_comm] using hx
          have hget : cs[digCount cs + 1 + (digCount rest2 - 1)]? = some d := by
            have hz := List.getElem?_drop cs (digCount cs + 1) (digCount rest2 - 1)
            rw [hdrop, hd] at hz
            exact hz.symm
          have hidx : len - 1 = digCount cs + 1 + (digCount rest2 - 1) := by omega
          rw [hidx]
          exact hget
      · rw [if_neg hc] at h
        exact Option.noConfusion h

theorem finditerGo_sound : ∀ (fuel : Nat) (cs : List Char) (pos st sp : Nat),
    (st, sp) ∈ finditerGo fuel cs pos →
    pos ≤ st ∧ st < sp ∧ sp ≤ pos + cs.length ∧
    ∃ c, cs[sp - 1 - pos]? = some c ∧ isDig c = true := by
  intro fuel
  induction fuel with
  | zero => intro cs pos st sp h; simp [finditerGo] at h
  | succ f ih =>
    intro cs pos st sp h
    cases cs with
    | nil => simp [finditerGo] at h
    | cons c rest =>
      rw [finditerGo] at h
      rcases hm : matchAt (c :: rest) with _ | len
      · rw [hm] at h
        obtain ⟨h1, h2, h3, d, hd, hdd⟩ := ih rest (pos + 1) st sp h
        refine ⟨by omega, h2, by simp; omega, d, ?_, hdd⟩
        have hidx : sp - 1 - pos = (sp - 1 - (pos + 1)) + 1 := by omega
        rw [hidx]
        simpa using hd
      · rw [hm] at h
        obtain ⟨hml, hmu, e, he, hed⟩ := matchAt_sound (c :: rest) len hm
        rcases List.mem_cons.mp h with heq | hmem
        · have hst : st = pos := congrArg Prod.fst heq
          have hsp : sp = pos + len := congrArg Prod.snd heq
          refine ⟨by omega, by omega, by rw [hsp]; simpa using hmu, e, ?_, hed⟩
          have hidx : sp - 1 - pos = len - 1 := by omega
          rw [hidx]
          exact he
        · obtain ⟨h1, h2, h3, d, hd, hdd⟩ := ih _ (pos + len) st sp hmem
          have hlen3 : (List.drop (len - 1) rest).length = rest.length - (len - 1) := by
            rw [List.length_drop]
          refine ⟨by omega, h2, ?_, d, ?_, hdd⟩
          · rw [hlen3] at h3
            simp only [List.length_cons]
            have hmu2 : len ≤ rest.length + 1 := by simpa using hmu
            omega
          · have hz := List.getElem?_drop rest (len - 1) (sp - 1 - (pos + len))
            rw [hd] at hz
            have hidx : (len - 1) + (sp - 1 - (pos + len)) = (sp - 1 - pos) - 1 := by omega
            rw [hidx] at hz
            have hge : 1 ≤ sp - 1 - pos := by omega
            have hidx2 : sp - 1 - pos = ((sp - 1 - pos) - 1) + 1 := by omega
            rw [hidx2]
            simpa using hz.symm

theorem finditerGo_disjoint : ∀ (fuel : Nat) (cs : List Char) (pos : Nat),
    List.Pairwise (fun x y => x.2 ≤ y.1) (finditerGo fuel cs pos) := by
  intro fuel
  induction fuel with
  | zero => intro cs pos; simp [finditerGo]
  | succ f ih =>
    intro cs pos
    cases cs with
    | nil => simp [finditerGo]
    | cons c rest =>
      rw [finditerGo]
      rcases hm : matchAt (c :: rest) with _ | len
      · exact ih rest (pos + 1)
      · apply List.Pairwise.cons
        · intro y hy
          have := (finditerGo_sound f _ (pos + len) y.1 y.2 (by simpa using hy)).1
          simpa using this
        · exact ih _ (pos + len)

theorem finditer_sound (v : List Char) (st sp : Nat) (h : (st, sp) ∈ finditer v) :
    st < sp ∧ sp ≤ v.length ∧ ∃ c, v[sp - 1]? = some c ∧ isDig c = true := by
  obtain ⟨_, h2, h3, c, hc, hd⟩ := finditerGo_sound v.length v 0 st sp h
  exact ⟨h2, by simpa using h3, c, by simpa using hc, hd⟩

theorem finditer_disjoint (v : List Char) :
    List.Pairwise (fun x y => x.2 ≤ y.1) (finditer v) :=
  finditerGo_disjoint v.length v 0

/-! The embedding loop as a fold, and its net effect on attribute values. -/

theorem embedFold_eq_foldl (ws : List Write) (doc : Doc) :
    embedFold ws doc = ws.foldl (fun d w => embed_bit w.1 w.2.1 w.2.2 d) doc := by
  induction ws generalizing doc with
  | nil => rfl
  | cons w rest ih =>
    rcases w with ⟨b, r, sl⟩
    rw [embedFold, ih, List.foldl_cons]

theorem embedWrites_eq_embedFold (bits : List Nat) (slots : List Slot) (rs : Nat → Nat)
    (doc : Doc) : embedWrites bits slots rs doc = embedFold (packWrites bits slots rs) doc := by
  rw [embedWrites, packWrites, embedFold_eq_foldl, List.foldl_map]

theorem embed_bit_length (b r : Nat) (sl : Slot) (doc : Doc) :
    (embed_bit b r sl doc).length = doc.length := by
  simp [embed_bit]

theorem embed_bit_tag (b r : Nat) (sl : Slot) (doc : Doc) (j : Nat) :
    ((embed_bit b r sl doc).getD j emptyElem).tag = (doc.getD j emptyElem).tag := by
  simp only [embed_bit]
  exact tag_docAttr_set doc sl.nodeIdx sl.attr _ j

theorem embedFold_length (ws : List Write) (doc : Doc) :
    (embedFold ws doc).length = doc.length := by
  induction ws generalizing doc with
  | nil => rfl
  | cons w rest ih =>
    rcases w with ⟨b, r, sl⟩
    rw [embedFold, ih, embed_bit_length]

theorem embedFold_tag (ws : List Write) (doc : Doc) (j : Nat) :
    ((embedFold ws doc).getD j emptyElem).tag = (doc.getD j emptyElem).tag := by
  induction ws generalizing doc with
  | nil => rfl
  | cons w rest ih =>
    rcases w with ⟨b, r, sl⟩
    rw [embedFold, ih, embed_bit_tag]

theorem applyWrites_cons (w : Write) (ws : List Write) (j : Nat) (b : String)
    (v : List Char) :
    applyWrites (w :: ws) j b v =
      applyWrites ws j b
        (if w.2.2.nodeIdx = j ∧ w.2.2.attr = b then
          v.set (w.2.2.stop - 1) (Char.ofNat (48 + (2 * w.2.1 + w.1)))
        else v) := by
  rw [applyWrites, applyWrites, List.foldl_cons]

theorem applyWrites_length (ws : List Write) (j : Nat) (b : String) :
    ∀ v, (applyWrites ws j b v).length = v.length := by
  induction ws with
  | nil => intro v; rfl
  | cons w rest ih =>
    intro v
    rw [applyWrites_cons]
    by_cases h : w.2.2.nodeIdx = j ∧ w.2.2.attr = b
    · rw [if_pos h, ih, List.length_set]
    · rw [if_neg h, ih]

theorem applyWrites_untouched (ws : List Write) (j : Nat) (b : String) (p : Nat) :
    ∀ v, (∀ w ∈ ws, ¬(w.2.2.nodeIdx = j ∧ w.2.2.attr = b ∧ w.2.2.stop - 1 = p)) →
    (applyWrites ws j b v)[p]? = v[p]? := by
  induction ws with
  | nil => intro v _; rfl
  | cons w rest ih =>
    intro v hw
    rw [applyWrites_cons]
    by_cases h : w.2.2.nodeIdx = j ∧ w.2.2.attr = b
    · rw [if_pos h]
      have hp : w.2.2.stop - 1 ≠ p := by
        intro hc
        exact hw w (by simp) ⟨h.1, h.2, hc⟩
      rw [ih _ (fun x hx => hw x (by simp [hx]))]
      rw [List.getElem?_set]
      simp [hp]
    · rw [if_neg h]
      exact ih v (fun x hx => hw x (by simp [hx]))

theorem applyWrites_append (l1 l2 : List Write) (j : Nat) (b : String) (v : List Char) :
    applyWrites (l1 ++ l2) j b v = applyWrites l2 j b (applyWrites l1 j b v) := by
  rw [applyWrites, applyWrites, applyWrites, List.foldl_append]

theorem applyWrites_hit (l1 l2 : List Write) (w : Write) (j : Nat) (b : String)
    (v : List Char)
    (hw : w.2.2.nodeIdx = j ∧ w.2.2.attr = b)
    (hp : w.2.2.stop - 1 < v.length)
    (hl2 : ∀ x ∈ l2, ¬(x.2.2.nodeIdx = j ∧ x.2.2.attr = b ∧
      x.2.2.stop - 1 = w.2.2.stop - 1)) :
    (applyWrites (l1 ++ w :: l2) j b v)[w.2.2.stop - 1]? =
      some (Char.ofNat (48 + (2 * w.2.1 + w.1))) := by
  rw [applyWrites_append, applyWrites_cons, if_pos hw,
    applyWrites_untouched l2 j b _ _ hl2]
  rw [List.getElem?_set]
  have hlen : w.2.2.stop - 1 < (applyWrites l1 j b v).length := by
    rw [applyWrites_length]
    exact hp
  simp [hlen]

theorem embedFold_cons (w : Write) (rest : List Write) (d : Doc) :
    embedFold (w :: rest) d = embedFold rest (embed_bit w.1 w.2.1 w.2.2 d) := by
  rcases w with ⟨b, r, sl⟩
  rfl

/-- The value of every attribute after the embedding loop is the original
value with all the loop's writes to it applied in order. -/
theorem embedFold_docAttr : ∀ (ws : List Write) (doc : Doc),
    (∀ w ∈ ws, ∃ v0, docAttr doc w.2.2.nodeIdx w.2.2.attr = some v0 ∧
      w.2.2.start < w.2.2.stop ∧ w.2.2.stop ≤ v0.length) →
    ∀ j b v, docAttr doc j b = some v →
      docAttr (embedFold ws doc) j b = some (applyWrites ws j b v) := by
  intro ws
  induction ws with
  | nil =>
    intro doc _ j b v hv
    rw [embedFold]
    rw [applyWrites]
    simpa using hv
  | cons w rest ih =>
    intro doc hwf j b v hv
    obtain ⟨v0, hv0, hlt, hle⟩ := hwf w (by simp)
    rw [embedFold_cons]
    have hspec := embed_bit_spec w.1 w.2.1 w.2.2 doc v0 hv0 hlt hle
    have hi : w.2.2.nodeIdx < doc.length := docAttr_isSome_lt _ _ _ _ hv0
    have hset_same : docAttr (embed_bit w.1 w.2.1 w.2.2 doc) w.2.2.nodeIdx w.2.2.attr =
        some (v0.set (w.2.2.stop - 1) (Char.ofNat (48 + (2 * w.2.1 + w.1)))) := by
      rw [hspec]
      exact docAttr_set_same doc w.2.2.nodeIdx w.2.2.attr _ (by rw [hv0]; rfl) hi
    have hset_other : ∀ j2 b2, (j2 ≠ w.2.2.nodeIdx ∨ b2 ≠ w.2.2.attr) →
        docAttr (embed_bit w.1 w.2.1 w.2.2 doc) j2 b2 = docAttr doc j2 b2 := by
      intro j2 b2 hne
      rw [hspec]
      exact docAttr_set_other doc w.2.2.nodeIdx w.2.2.attr _ j2 b2 hne
    have hwf1 : ∀ x ∈ rest, ∃ v1, docAttr (embed_bit w.1 w.2.1 w.2.2 doc) x.2.2.nodeIdx
        x.2.2.attr = some v1 ∧ x.2.2.start < x.2.2.stop ∧ x.2.2.stop ≤ v1.length := by
      intro x hx
      obtain ⟨vx, hvx, hxl, hxr⟩ := hwf x (by simp [hx])
      by_cases hsame : x.2.2.nodeIdx = w.2.2.nodeIdx ∧ x.2.2.attr = w.2.2.attr
      · have hveq : vx = v0 := by
          rw [hsame.1, hsame.2, hv0] at hvx
          exact (Option.some.inj hvx).symm
        refine ⟨v0.set (w.2.2.stop - 1) (Char.ofNat (48 + (2 * w.2.1 + w.1))), ?_, hxl, ?_⟩
        · rw [hsame.1, hsame.2]
          exact hset_same
        · rw [List.length_set, ← hveq]
          exact hxr
      · rw [Decidable.not_and_iff_or_not] at hsame
        refine ⟨vx, ?_, hxl, hxr⟩
        rw [hset_other _ _ hsame]
        exact hvx
    by_cases hsame : w.2.2.nodeIdx = j ∧ w.2.2.attr = b
    · have hveq : v0 = v := by
        rw [hsame.1, hsame.2, hv] at hv0
        exact (Option.some.inj hv0).symm
      have h1 : docAttr (embed_bit w.1 w.2.1 w.2.2 doc) j b =
          some (v.set (w.2.2.stop - 1) (Char.ofNat (48 + (2 * w.2.1 + w.1)))) := by
        rw [← hsame.1, ← hsame.2, ← hveq]
        exact hset_same
      rw [ih (embed_bit w.1 w.2.1 w.2.2 doc) hwf1 j b _ h1]
      congr 1
      rw [applyWrites_cons, if_pos hsame]
    · have h1 : docAttr (embed_bit w.1 w.2.1 w.2.2 doc) j b = some v := by
        have hsame2 := hsame
        rw [Decidable.not_and_iff_or_not] at hsame2
        have hne : j ≠ w.2.2.nodeIdx ∨ b ≠ w.2.2.attr := by
          rcases hsame2 with h | h
          · exact Or.inl (fun hc => h hc.symm)
          · exact Or.inr (fun hc => h hc.symm)
        rw [hset_other j b hne]
        exact hv
      rw [ih (embed_bit w.1 w.2.1 w.2.2 doc) hwf1 j b _ h1]
      congr 1
      rw [applyWrites_cons, if_neg hsame]

/-- The digit written by embed_bit is again a digit character. -/
theorem digitChar_isDig (lsd : Nat) (h1 : 2 ≤ lsd) (h2 : lsd ≤ 9) :
    isDig (Char.ofNat (48 + lsd)) = true := by
  interval_cases lsd <;> decide

/-- Applying digit-for-digit writes preserves every character class. -/
theorem applyWrites_classes (ws : List Write) (j : Nat) (b : String) :
    ∀ v, (∀ w ∈ ws, 2 ≤ 2 * w.2.1 + w.1 ∧ 2 * w.2.1 + w.1 ≤ 9) →
    (∀ w ∈ ws, (w.2.2.nodeIdx = j ∧ w.2.2.attr = b) →
      ∃ c, v[w.2.2.stop - 1]? = some c ∧ isDig c = true) →
    (applyWrites ws j b v).map charClass = v.map charClass := by
  induction ws with
  | nil => intro v _ _; rfl
  | cons w rest ih =>
    intro v hlsd hdig
    rw [applyWrites_cons]
    by_cases hsame : w.2.2.nodeIdx = j ∧ w.2.2.attr = b
    · rw [if_pos hsame]
      obtain ⟨c, hc, hcd⟩ := hdig w (by simp) hsame
      have hp : w.2.2.stop - 1 < v.length := by
        by_contra hcon
        push_neg at hcon
        rw [List.getElem?_eq_none hcon] at hc
        exact Option.noConfusion hc
      have hnewdig : isDig (Char.ofNat (48 + (2 * w.2.1 + w.1))) = true :=
        digitChar_isDig _ (hlsd w (by simp)).1 (hlsd w (by simp)).2
      have hclasses : (v.set (w.2.2.stop - 1) (Char.ofNat (48 + (2 * w.2.1 + w.1)))).map
          charClass = v.map charClass := by
        apply List.ext_getElem?
        intro n
        rw [List.getElem?_map, List.getElem?_map, List.getElem?_set]
        by_cases hn : w.2.2.stop - 1 = n
        · rw [if_pos hn, if_pos hp]
          rw [← hn, hc]
          simp only [Option.map_some']
          congr 1
          rw [charClass, charClass, if_pos hnewdig, if_pos hcd]
        · rw [if_neg hn]
      rw [ih _ (fun x hx => hlsd x (by simp [hx])) ?_, hclasses]
      intro x hx hxs
      obtain ⟨cx, hcx, hcxd⟩ := hdig x (by simp [hx]) hxs
      by_cases hpos : w.2.2.stop - 1 = x.2.2.stop - 1
      · refine ⟨Char.ofNat (48 + (2 * w.2.1 + w.1)), ?_, hnewdig⟩
        rw [List.getElem?_set, ← hpos]
        simp [hp]
      · refine ⟨cx, ?_, hcxd⟩
        rw [List.getElem?_set, if_neg hpos]
        exact hcx
    · rw [if_neg hsame]
      apply ih _ (fun x hx => hlsd x (by simp [hx]))
      intro x hx hxs
      exact hdig x (by simp [hx]) hxs

/-! Well-formedness and pairwise-distinct write targets of discovered slots. -/

theorem slotsOfAttr_fields (doc : Doc) (i : Nat) (a : String) :
    ∀ sl ∈ slotsOfAttr doc i a, sl.nodeIdx = i ∧ sl.attr = a := by
  intro sl hsl
  rw [slotsOfAttr] at hsl
  rcases hv : docAttr doc i a with _ | v
  · rw [hv] at hsl
    simp at hsl
  · rw [hv] at hsl
    obtain ⟨sp, _, heq⟩ := List.mem_map.mp hsl
    rw [← heq]
    exact ⟨rfl, rfl⟩

theorem slotsOfAttr_wf (doc : Doc) (i : Nat) (a : String) :
    ∀ sl ∈ slotsOfAttr doc i a, slotWf doc sl := by
  intro sl hsl
  rw [slotsOfAttr] at hsl
  rcases hv : docAttr doc i a with _ | v
  · rw [hv] at hsl
    simp at hsl
  · rw [hv] at hsl
    obtain ⟨sp, hspm, heq⟩ := List.mem_map.mp hsl
    obtain ⟨h1, h2, c, hc, hcd⟩ := finditer_sound v sp.1 sp.2 (by
      rcases sp with ⟨s1, s2⟩
      exact hspm)
    rw [← heq]
    exact ⟨hv, h1, h2, c, hc, hcd⟩

theorem rawSlots_wf (doc : Doc) (nodes : List Nat) :
    ∀ sl ∈ rawSlots doc nodes, slotWf doc sl := by
  intro sl hsl
  rw [rawSlots] at hsl
  obtain ⟨i, _, hin⟩ := List.mem_flatMap.mp hsl
  obtain ⟨a, _, hsl2⟩ := List.mem_flatMap.mp hin
  exact slotsOfAttr_wf doc i a sl hsl2

theorem tagAttrs_nodup (t : String) : (tagAttrs t).Nodup := by
  rw [tagAttrs]
  rcases hf : embed_tags.find? (fun p => p.1 = t) with _ | p
  · rw [hf]
    simp
  · rw [hf]
    have hm := List.mem_of_find?_eq_some hf
    rw [embed_tags] at hm
    simp only [Option.map_some', Option.getD_some]
    rcases List.mem_cons.mp hm with h | hm2
    · rw [h]
      decide
    · rcases List.mem_cons.mp hm2 with h | hm3
      · rw [h]
        decide
      · rcases List.mem_cons.mp hm3 with h | hm4
        · rw [h]
          decide
        · simp at hm4

theorem slotsOfAttr_targets (doc : Doc) (i : Nat) (a : String) :
    List.Pairwise (fun s t => target s ≠ target t) (slotsOfAttr doc i a) := by
  rw [slotsOfAttr]
  rcases hv : docAttr doc i a with _ | v
  · simp
  · rw [List.pairwise_map]
    have hd := finditer_disjoint v
    apply List.Pairwise.imp_of_mem ?_ hd
    intro x y hx hy hxy
    rcases x with ⟨x1, x2⟩
    rcases y with ⟨y1, y2⟩
    obtain ⟨hx1, _, _⟩ := finditer_sound v x1 x2 hx
    obtain ⟨hy1, _, _⟩ := finditer_sound v y1 y2 hy
    simp only [target, ne_eq, Prod.mk.injEq]
    intro hcon
    have h3 := hcon.2.2
    simp only at hxy
    omega

theorem perTag_filter_nodup (doc : Doc) (t : String) :
    ((List.range doc.length).filter (fun i => (doc.getD i emptyElem).tag = t)).Nodup :=
  (List.nodup_range _).filter _

theorem eligibleBuilt_nodup (doc : Doc) : (eligibleBuilt doc).Nodup := by
  rw [eligibleBuilt]
  rw [List.nodup_flatMap]
  constructor
  · intro t _
    exact perTag_filter_nodup doc t
  · rw [embed_tags]
    simp only [List.map_cons, List.map_nil]
    refine List.Pairwise.cons ?_ (List.Pairwise.cons ?_ (List.Pairwise.cons ?_ List.Pairwise.nil))
    · intro t ht
      simp only [List.mem_cons, List.not_mem_nil, or_false] at ht
      intro x hx1 hx2
      have h1 := (List.mem_filter.mp hx1).2
      have h2 := (List.mem_filter.mp hx2).2
      simp only [decide_eq_true_eq] at h1 h2
      rcases ht with h | h <;> rw [h] at h2 <;> rw [h1] at h2 <;> exact absurd h2 (by decide)
    · intro t ht
      simp only [List.mem_cons, List.not_mem_nil, or_false] at ht
      intro x hx1 hx2
      have h1 := (List.mem_filter.mp hx1).2
      have h2 := (List.mem_filter.mp hx2).2
      simp only [decide_eq_true_eq] at h1 h2
      rw [ht] at h2
      rw [h1] at h2
      exact absurd h2 (by decide)
    · intro t ht
      simp at ht

theorem rawSlots_targets (doc : Doc) (nodes : List Nat) (hnd : nodes.Nodup) :
    List.Pairwise (fun s t => target s ≠ target t) (rawSlots doc nodes) := by
  rw [rawSlots, List.pairwise_flatMap]
  constructor
  · intro i _
    rw [List.pairwise_flatMap]
    constructor
    · intro a _
      exact slotsOfAttr_targets doc i a
    · have hnd2 := tagAttrs_nodup (doc.getD i emptyElem).tag
      rw [List.Nodup] at hnd2
      apply List.Pairwise.imp_of_mem ?_ hnd2
      intro a1 a2 _ _ hne x hx y hy
      obtain ⟨_, hxa⟩ := slotsOfAttr_fields doc i a1 x hx
      obtain ⟨_, hya⟩ := slotsOfAttr_fields doc i a2 y hy
      rw [target, target, hxa, hya]
      intro hcon
      exact hne (congrArg (fun q => q.2.1) hcon)
  · rw [List.Nodup] at hnd
    apply List.Pairwise.imp_of_mem ?_ hnd
    intro i1 i2 _ _ hne x hx y hy
    obtain ⟨a1, _, hx2⟩ := List.mem_flatMap.mp hx
    obtain ⟨a2, _, hy2⟩ := List.mem_flatMap.mp hy
    obtain ⟨hxi, _⟩ := slotsOfAttr_fields doc i1 a1 x hx2
    obtain ⟨hyi, _⟩ := slotsOfAttr_fields doc i2 a2 y hy2
    rw [target, target, hxi, hyi]
    intro hcon
    exact hne (congrArg (fun q => q.1) hcon)

theorem canonSlots_perm_raw (doc : Doc) :
    (canonSlots doc).Perm (rawSlots doc (isort natLEB (eligibleBuilt doc))) :=
  isort_perm _ _

theorem canonSlots_wf (doc : Doc) : ∀ sl ∈ canonSlots doc, slotWf doc sl := by
  intro sl hsl
  exact rawSlots_wf doc _ sl ((canonSlots_perm_raw doc).mem_iff.mp hsl)

theorem canonSlots_targets (doc : Doc) :
    List.Pairwise (fun s t => target s ≠ target t) (canonSlots doc) := by
  have h1 : (isort natLEB (eligibleBuilt doc)).Nodup :=
    ((isort_perm _ _).nodup_iff).mpr (eligibleBuilt_nodup doc)
  have h2 := rawSlots_targets doc _ h1
  exact ((canonSlots_perm_raw doc).pairwise_iff (fun h => Ne.symm h)).mpr h2

/-! Re-discovery: after the embedding loop, the same spans are found and
the canonical slot sequence is the original one with fresh snapshots. -/

theorem slotWf_to_writes (ws : List Write) (doc : Doc)
    (hwf : ∀ w ∈ ws, slotWf doc w.2.2) :
    ∀ w ∈ ws, ∃ v0, docAttr doc w.2.2.nodeIdx w.2.2.attr = some v0 ∧
      w.2.2.start < w.2.2.stop ∧ w.2.2.stop ≤ v0.length := by
  intro w hw
  obtain ⟨h1, h2, h3, _⟩ := hwf w hw
  exact ⟨w.2.2.s, h1, h2, h3⟩

theorem embedFold_docAttr_none : ∀ (ws : List Write) (doc : Doc),
    (∀ w ∈ ws, ∃ v0, docAttr doc w.2.2.nodeIdx w.2.2.attr = some v0 ∧
      w.2.2.start < w.2.2.stop ∧ w.2.2.stop ≤ v0.length) →
    ∀ j b, docAttr doc j b = none → docAttr (embedFold ws doc) j b = none := by
  intro ws
  induction ws with
  | nil => intro doc _ j b h; exact h
  | cons w rest ih =>
    intro doc hwf j b h
    obtain ⟨v0, hv0, hlt, hle⟩ := hwf w (by simp)
    rw [embedFold_cons]
    have hspec := embed_bit_spec w.1 w.2.1 w.2.2 doc v0 hv0 hlt hle
    have hne : j ≠ w.2.2.nodeIdx ∨ b ≠ w.2.2.attr := by
      by_contra hc
      push_neg at hc
      rw [hc.1, hc.2, hv0] at h
      exact Option.noConfusion h
    have h1 : docAttr (embed_bit w.1 w.2.1 w.2.2 doc) j b = none := by
      rw [hspec, docAttr_set_other doc w.2.2.nodeIdx w.2.2.attr _ j b hne]
      exact h
    apply ih
    · intro x hx
      obtain ⟨vx, hvx, hxl, hxr⟩ := hwf x (by simp [hx])
      by_cases hsame : x.2.2.nodeIdx = w.2.2.nodeIdx ∧ x.2.2.attr = w.2.2.attr
      · have hveq : vx = v0 := by
          rw [hsame.1, hsame.2, hv0] at hvx
          exact (Option.some.inj hvx).symm
        refine ⟨v0.set (w.2.2.stop - 1) (Char.ofNat (48 + (2 * w.2.1 + w.1))), ?_, hxl, ?_⟩
        · rw [hsame.1, hsame.2, hspec]
          exact docAttr_set_same doc w.2.2.nodeIdx w.2.2.attr _ (by rw [hv0]; rfl)
            (docAttr_isSome_lt _ _ _ _ hv0)
        · rw [List.length_set, ← hveq]
          exact hxr
      · rw [Decidable.not_and_iff_or_not] at hsame
        refine ⟨vx, ?_, hxl, hxr⟩
        rw [hspec, docAttr_set_other doc w.2.2.nodeIdx w.2.2.attr _ _ _ hsame]
        exact hvx
    · exact h1

theorem slotsOfAttr_update (ws : List Write) (doc : Doc) (i : Nat) (a : String)
    (hwf : ∀ w ∈ ws, slotWf doc w.2.2)
    (hlsd : ∀ w ∈ ws, 2 ≤ 2 * w.2.1 + w.1 ∧ 2 * w.2.1 + w.1 ≤ 9) :
    slotsOfAttr (embedFold ws doc) i a =
      (slotsOfAttr doc i a).map (snapUpdate (embedFold ws doc)) := by
  have hwr := slotWf_to_writes ws doc hwf
  rcases hv : docAttr doc i a with _ | v
  · have hnone := embedFold_docAttr_none ws doc hwr i a hv
    rw [slotsOfAttr, slotsOfAttr, hv, hnone]
    rfl
  · have hsome := embedFold_docAttr ws doc hwr i a v hv
    have hdig : ∀ w ∈ ws, (w.2.2.nodeIdx = i ∧ w.2.2.attr = a) →
        ∃ c, v[w.2.2.stop - 1]? = some c ∧ isDig c = true := by
      intro w hw hia
      obtain ⟨h1, _, _, c, hc, hcd⟩ := hwf w hw
      rw [hia.1, hia.2, hv] at h1
      have : w.2.2.s = v := (Option.some.inj h1).symm
      rw [← this]
      exact ⟨c, hc, hcd⟩
    have hclasses := applyWrites_classes ws i a v hlsd hdig
    have hfind : finditer (applyWrites ws i a v) = finditer v :=
      finditer_class _ _ hclasses
    rw [slotsOfAttr, slotsOfAttr, hv, hsome]
    simp only
    rw [hfind, List.map_map]
    apply List.map_congr_left
    intro sp _
    simp only [Function.comp_apply, snapUpdate, hsome, Option.getD_some]

theorem eligibleBuilt_embedFold (ws : List Write) (doc : Doc) :
    eligibleBuilt (embedFold ws doc) = eligibleBuilt doc := by
  rw [eligibleBuilt, eligibleBuilt, embedFold_length]
  apply List.flatMap_congr
  intro t _
  apply List.filter_congr
  intro i _
  rw [embedFold_tag]

theorem canonLE_snapUpdate (d : Doc) (s t : Slot) :
    canonLE (snapUpdate d s) (snapUpdate d t) = canonLE s t := rfl

theorem rediscovery (ws : List Write) (doc : Doc)
    (hwf : ∀ w ∈ ws, slotWf doc w.2.2)
    (hlsd : ∀ w ∈ ws, 2 ≤ 2 * w.2.1 + w.1 ∧ 2 * w.2.1 + w.1 ≤ 9) :
    canonSlots (embedFold ws doc) = (canonSlots doc).map (snapUpdate (embedFold ws doc)) := by
  rw [canonSlots, canonSlots, eligibleBuilt_embedFold]
  have hraw : rawSlots (embedFold ws doc) (isort natLEB (eligibleBuilt doc)) =
      (rawSlots doc (isort natLEB (eligibleBuilt doc))).map (snapUpdate (embedFold ws doc)) := by
    rw [rawSlots, rawSlots, List.map_flatMap]
    apply List.flatMap_congr
    intro i _
    rw [embedFold_tag, List.map_flatMap]
    apply List.flatMap_congr
    intro a _
    exact slotsOfAttr_update ws doc i a hwf hlsd
  rw [hraw]
  exact isort_map (snapUpdate (embedFold ws doc)) canonLE canonLE
    (fun s t => canonLE_snapUpdate _ s t) _

/-! Assembly of the round trip: capacity arithmetic, permutation plumbing,
and reading back a written bit. -/

theorem capacity_to_slots (n p : Nat) (h : (p : Int) ≤ capacityVal n) :
    32 + 8 * p ≤ n := by
  by_cases h32 : n < 32
  · exfalso
    have hneg : capacityVal n < 0 := by
      interval_cases n <;> decide
    omega
  · push_neg at h32
    rw [capacityVal] at h
    have hdm := Int.fdiv_add_fmod ((n : Int) - 32) 8
    have hr : 0 ≤ ((n : Int) - 32).fmod 8 := Int.fmod_nonneg (by omega) (by omega)
    omega

theorem applyPerm_range (slots : List Slot) :
    applyPerm (List.range slots.length) slots = slots := by
  rw [applyPerm]
  exact map_range_getD slots

theorem applyPerm_perm (idxs : List Nat) (slots : List Slot)
    (h : idxs.Perm (List.range slots.length)) :
    (applyPerm idxs slots).Perm slots := by
  have h2 := h.map (fun i => slots.getD i dummySlot)
  rw [applyPerm]
  have h3 : (List.range slots.length).map (fun i => slots.getD i dummySlot) = slots :=
    map_range_getD slots
  rw [h3] at h2
  exact h2

theorem applyPerm_length (idxs : List Nat) (slots : List Slot) :
    (applyPerm idxs slots).length = idxs.length := by
  rw [applyPerm, List.length_map]

theorem getD_map_of_lt (f : Slot → Slot) (l : List Slot) (i : Nat) (hi : i < l.length) :
    (l.map f).getD i dummySlot = f (l.getD i dummySlot) := by
  rw [List.getD, List.getD, List.get?_eq_getElem?, List.get?_eq_getElem?,
    List.getElem?_map, List.getElem?_eq_getElem hi]
  rfl

theorem getD_mem (l : List Slot) (i : Nat) (hi : i < l.length) :
    l.getD i dummySlot ∈ l := by
  rw [List.getD, List.get?_eq_getElem?, List.getElem?_eq_getElem hi]
  exact List.getElem_mem hi

theorem applyPerm_map (idxs : List Nat) (slots : List Slot) (f : Slot → Slot)
    (hidx : ∀ i ∈ idxs, i < slots.length) :
    applyPerm idxs (slots.map f) = (applyPerm idxs slots).map f := by
  rw [applyPerm, applyPerm, List.map_map]
  apply List.map_congr_left
  intro i hi
  rw [Function.comp_apply]
  exact getD_map_of_lt f slots i (hidx i hi)

theorem slice_getLastD (s : List Char) (st sp : Nat) (c : Char)
    (h1 : st < sp) (h2 : sp ≤ s.length) (hc : s[sp - 1]? = some c) :
    ((s.drop st).take (sp - st)).getLastD '0' = c := by
  have hlen : ((s.drop st).take (sp - st)).length = sp - st := by
    rw [List.length_take, List.length_drop]
    omega
  rw [List.getLastD_eq_getLast?, List.getLast?_eq_getElem?, hlen]
  have hidx : ((s.drop st).take (sp - st))[sp - st - 1]? = s[sp - 1]? := by
    rw [List.getElem?_take, if_pos (by omega), List.getElem?_drop]
    congr 1
    omega
  rw [hidx, hc]
  rfl

theorem digit_read_back (r bit : Nat) (hr1 : 1 ≤ r) (hr2 : r ≤ 4) (hb : bit ≤ 1) :
    (if ((Char.ofNat (48 + (2 * r + bit))).toNat - 48) % 2 = 0 then 0 else 1) = bit := by
  interval_cases r <;> interval_cases bit <;> decide

/-- Reading extract_bit from a slot whose snapshot holds a known character
before the span end. -/
theorem extract_bit_char (sl : Slot) (c : Char)
    (h1 : sl.start < sl.stop) (h2 : sl.stop ≤ sl.s.length)
    (hc : sl.s[sl.stop - 1]? = some c) :
    extract_bit sl = if (c.toNat - 48) % 2 = 0 then 0 else 1 := by
  rw [extract_bit]
  rw [slice_getLastD sl.s sl.start sl.stop c h1 h2 hc]

theorem map_range_getD_take (l : List Nat) (m : Nat) (hm : m ≤ l.length) :
    (List.range m).map (fun i => l.getD i 0) = l.take m := by
  apply List.ext_getElem
  · simp
    omega
  · intro i h1 h2
    simp only [List.getElem_map, List.getElem_range, List.getElem_take]
    rw [List.length_map, List.length_range] at h1
    rw [List.getD, List.get?_eq_getElem?, List.getElem?_eq_getElem (by omega : i < l.length)]
    rfl

theorem map_range_getD_drop (l : List Nat) (k m : Nat) (hm : k + m = l.length) :
    (List.range m).map (fun j => l.getD (k + j) 0) = l.drop k := by
  apply List.ext_getElem
  · simp
    omega
  · intro i h1 h2
    simp only [List.getElem_map, List.getElem_range, List.getElem_drop]
    rw [List.length_map, List.length_range] at h1
    rw [List.getD, List.get?_eq_getElem?, List.getElem?_eq_getElem (by omega : k + i < l.length)]
    rfl

theorem packWrites_length (bits : List Nat) (slots : List Slot) (rs : Nat → Nat) :
    (packWrites bits slots rs).length = bits.length := by
  rw [packWrites, List.length_map, List.length_range]

theorem packWrites_getElem (bits : List Nat) (slots : List Slot) (rs : Nat → Nat)
    (i : Nat) (hi : i < bits.length)
    (hi2 : i < (packWrites bits slots rs).length) :
    (packWrites bits slots rs)[i] =
      (bits.getD i 0, rs i, slots.getD i dummySlot) := by
  simp only [packWrites]
  rw [List.getElem_map, List.getElem_range]

theorem packWrites_mem (bits : List Nat) (slots : List Slot) (rs : Nat → Nat)
    (w : Write) (hw : w ∈ packWrites bits slots rs) :
    ∃ i, i < bits.length ∧ w = (bits.getD i 0, rs i, slots.getD i dummySlot) := by
  rw [packWrites] at hw
  obtain ⟨i, hi, heq⟩ := List.mem_map.mp hw
  rw [List.mem_range] at hi
  exact ⟨i, hi, heq.symm⟩

theorem getD_eq_getElem_slot (l : List Slot) (i : Nat) (h : i < l.length) :
    l.getD i dummySlot = l[i] := by
  rw [List.getD, List.get?_eq_getElem?, List.getElem?_eq_getElem h]
  rfl

theorem getD_nat_le_one (l : List Nat) (h : ∀ x ∈ l, x ≤ 1) (k : Nat) :
    l.getD k 0 ≤ 1 := by
  by_cases hk : k < l.length
  · rw [List.getD, List.get?_eq_getElem?, List.getElem?_eq_getElem hk]
    exact h _ (List.getElem_mem hk)
  · push_neg at hk
    rw [List.getD_eq_default _ _ hk]
    omega

theorem packWrites_wf (doc : Doc) (bits : List Nat) (rs : Nat → Nat) (idxs : List Nat)
    (hperm : idxs.Perm (List.range (canonSlots doc).length))
    (hlen : bits.length ≤ (canonSlots doc).length) :
    ∀ w ∈ packWrites bits (applyPerm idxs (canonSlots doc)) rs, slotWf doc w.2.2 := by
  intro w hw
  obtain ⟨k, hk, heq⟩ := packWrites_mem _ _ _ w hw
  have hsl : (applyPerm idxs (canonSlots doc)).getD k dummySlot ∈ canonSlots doc := by
    have hl : (applyPerm idxs (canonSlots doc)).length = (canonSlots doc).length := by
      rw [applyPerm_length, hperm.length_eq, List.length_range]
    exact (applyPerm_perm idxs (canonSlots doc) hperm).mem_iff.mp
      (getD_mem _ k (by omega))
  rw [heq]
  exact canonSlots_wf doc _ hsl

theorem packWrites_lsd (bits : List Nat) (slots : List Slot) (rs : Nat → Nat)
    (hrs : ∀ i, 1 ≤ rs i ∧ rs i ≤ 4)
    (hbits1 : ∀ x ∈ bits, x ≤ 1) :
    ∀ w ∈ packWrites bits slots rs, 2 ≤ 2 * w.2.1 + w.1 ∧ 2 * w.2.1 + w.1 ≤ 9 := by
  intro w hw
  obtain ⟨k, hk, heq⟩ := packWrites_mem _ _ _ w hw
  rw [heq]
  have h1 := (hrs k).1
  have h2 := (hrs k).2
  have h3 := getD_nat_le_one bits hbits1 k
  simp only
  omega

/-- Reading back the bit written into permuted slot i after the whole
embedding loop ran. -/
theorem read_back (doc : Doc) (bits : List Nat) (rs : Nat → Nat) (idxs : List Nat)
    (hrs : ∀ i, 1 ≤ rs i ∧ rs i ≤ 4)
    (hbits1 : ∀ x ∈ bits, x ≤ 1)
    (hperm : idxs.Perm (List.range (canonSlots doc).length))
    (hlen : bits.length ≤ (canonSlots doc).length)
    (i : Nat) (hi : i < bits.length) :
    extract_bit (snapUpdate
      (embedFold (packWrites bits (applyPerm idxs (canonSlots doc)) rs) doc)
      ((applyPerm idxs (canonSlots doc)).getD i dummySlot)) = bits.getD i 0 := by
  set slots := canonSlots doc with hslots
  set shuffled := applyPerm idxs slots with hshuffled
  set ws := packWrites bits shuffled rs with hws
  have hshlen : shuffled.length = slots.length := by
    rw [hshuffled, applyPerm_length, hperm.length_eq, List.length_range]
  have hilt : i < shuffled.length := by omega
  set sl := shuffled.getD i dummySlot with hsl
  have hslmem : sl ∈ slots :=
    (applyPerm_perm idxs slots hperm).mem_iff.mp (getD_mem _ i hilt)
  obtain ⟨hattr, hstartlt, hstople, c0, hc0, hc0d⟩ := canonSlots_wf doc sl hslmem
  have hwfws : ∀ w ∈ ws, slotWf doc w.2.2 := packWrites_wf doc bits rs idxs hperm hlen
  have hnew : docAttr (embedFold ws doc) sl.nodeIdx sl.attr =
      some (applyWrites ws sl.nodeIdx sl.attr sl.s) :=
    embedFold_docAttr ws doc (slotWf_to_writes ws doc hwfws) sl.nodeIdx sl.attr sl.s hattr
  -- split the write list at position i
  have hwslen : ws.length = bits.length := packWrites_length _ _ _
  have hiws : i < ws.length := by omega
  have hsplit : ws = ws.take i ++ ws[i] :: ws.drop (i + 1) := by
    rw [← List.drop_eq_getElem_cons hiws, List.take_append_drop]
  have hwi : ws[i] = (bits.getD i 0, rs i, sl) :=
    packWrites_getElem bits shuffled rs i hi hiws
  have hpair : List.Pairwise (fun s t => target s ≠ target t) shuffled := by
    have h1 := canonSlots_targets doc
    exact ((applyPerm_perm idxs slots hperm).pairwise_iff (fun h => Ne.symm h)).mpr h1
  have hl2 : ∀ x ∈ ws.drop (i + 1), ¬(x.2.2.nodeIdx = sl.nodeIdx ∧
      x.2.2.attr = sl.attr ∧ x.2.2.stop - 1 = sl.stop - 1) := by
    intro x hx hcon
    obtain ⟨j, hj, hxj⟩ := List.mem_iff_getElem.mp hx
    have hjlen : i + 1 + j < bits.length := by
      rw [List.length_drop] at hj
      omega
    have hjws : i + 1 + j < ws.length := by omega
    have hget : (ws.drop (i + 1))[j] = ws[i + 1 + j] := List.getElem_drop ws
    have hxval : x = (bits.getD (i + 1 + j) 0, rs (i + 1 + j),
        shuffled.getD (i + 1 + j) dummySlot) := by
      rw [← hxj, hget]
      exact packWrites_getElem bits shuffled rs (i + 1 + j) hjlen hjws
    have hne : target (shuffled.getD (i + 1 + j) dummySlot) ≠ target sl := by
      have hp := List.pairwise_iff_getElem.mp hpair i (i + 1 + j) hilt (by omega) (by omega)
      rw [getD_eq_getElem_slot _ _ (by omega : i + 1 + j < shuffled.length),
        hsl, getD_eq_getElem_slot _ _ hilt]
      exact fun h => hp h.symm
    apply hne
    rw [hxval] at hcon
    simp only at hcon
    rw [target, target, hcon.1, hcon.2.1, hcon.2.2]
  have hchar : (applyWrites ws sl.nodeIdx sl.attr sl.s)[sl.stop - 1]? =
      some (Char.ofNat (48 + (2 * rs i + bits.getD i 0))) := by
    have heq : applyWrites ws sl.nodeIdx sl.attr sl.s =
        applyWrites (ws.take i ++ ws[i] :: ws.drop (i + 1)) sl.nodeIdx sl.attr sl.s := by
      rw [← hsplit]
    rw [heq, hwi]
    exact applyWrites_hit (ws.take i) (ws.drop (i + 1)) (bits.getD i 0, rs i, sl)
      sl.nodeIdx sl.attr sl.s ⟨rfl, rfl⟩ (by dsimp only; omega) (fun x hx => hl2 x hx)
  have hfinal : extract_bit (snapUpdate (embedFold ws doc) sl) =
      if ((Char.ofNat (48 + (2 * rs i + bits.getD i 0))).toNat - 48) % 2 = 0 then 0 else 1 := by
    apply extract_bit_char
    · exact hstartlt
    · rw [snapUpdate]
      simp only [hnew, Option.getD_some]
      rw [applyWrites_length]
      exact hstople
    · rw [snapUpdate]
      simp only [hnew, Option.getD_some]
      exact hchar
  rw [hfinal]
  exact digit_read_back (rs i) (bits.getD i 0) (hrs i).1 (hrs i).2
    (getD_nat_le_one bits hbits1 i)

/-- C1: with capacity respected and the same key, extraction recovers the
embedded payload exactly (round trip). Hypotheses: the keyed shuffle
replays identically from the key and slot count, object identities follow
document order on both runs, payload bytes are bytes, the framed length
fits the 32-bit header, and the randint draws are in range. -/
theorem round_trip
    (permFn : String → Nat → List Nat) (rs : Nat → Nat)
    (aN1 : Nat → Nat) (aM1 : Nat → String → Nat → Nat)
    (aN2 : Nat → Nat) (aM2 : Nat → String → Nat → Nat)
    (key : String) (msg : List Nat) (doc : Doc)
    (hperm : ∀ k n, (permFn k n).Perm (List.range n))
    (hN1 : ∀ i j, i < j → aN1 i < aN1 j)
    (hM1 : ∀ n a s t, s < t → aM1 n a s < aM1 n a t)
    (hN2 : ∀ i j, i < j → aN2 i < aN2 j)
    (hM2 : ∀ n a s t, s < t → aM2 n a s < aM2 n a t)
    (hmsg : ∀ b ∈ msg, b < 256) (hbig : 8 * msg.length < 2 ^ 32)
    (hrs : ∀ i, 1 ≤ rs i ∧ rs i ≤ 4)
    (hcap : (msg.length : Int) ≤ capacityVal (canonSlots doc).length) :
    (do_embed permFn rs aN1 aM1 key msg doc).2 = true ∧
    do_extract permFn aN2 aM2 key (do_embed permFn rs aN1 aM1 key msg doc).1 =
      .ok msg := by
  have hg1 : get_slots doc aN1 aM1 = canonSlots doc :=
    (get_slots_canonical_core doc aN1 aM1 hN1 hM1).1
  have hblen : (frameBits msg).length = 32 + 8 * msg.length :=
    frameBits_length msg hmsg hbig
  have hcap2 : 32 + 8 * msg.length ≤ (canonSlots doc).length :=
    capacity_to_slots _ _ hcap
  have hpermn := hperm key (canonSlots doc).length
  have hshlen : (applyPerm (permFn key (canonSlots doc).length) (canonSlots doc)).length =
      (canonSlots doc).length := by
    rw [applyPerm_length, hpermn.length_eq, List.length_range]
  have hembed : do_embed permFn rs aN1 aM1 key msg doc =
      (embedWrites (frameBits msg)
        (applyPerm (permFn key (canonSlots doc).length) (canonSlots doc)) rs doc, true) := by
    simp only [do_embed, hg1]
    rw [if_neg (by omega)]
  rw [hembed]
  refine ⟨rfl, ?_⟩
  set shuffled := applyPerm (permFn key (canonSlots doc).length) (canonSlots doc)
    with hshuffled
  set ws := packWrites (frameBits msg) shuffled rs with hws
  have hfold : embedWrites (frameBits msg) shuffled rs doc = embedFold ws doc :=
    embedWrites_eq_embedFold _ _ _ _
  have hwf : ∀ w ∈ ws, slotWf doc w.2.2 :=
    packWrites_wf doc (frameBits msg) rs _ hpermn (by omega)
  have hlsd : ∀ w ∈ ws, 2 ≤ 2 * w.2.1 + w.1 ∧ 2 * w.2.1 + w.1 ≤ 9 :=
    packWrites_lsd _ _ _ hrs (frameBits_mem_le_one msg)
  have hredis : canonSlots (embedFold ws doc) =
      (canonSlots doc).map (snapUpdate (embedFold ws doc)) :=
    rediscovery ws doc hwf hlsd
  have hg2 : get_slots (embedFold ws doc) aN2 aM2 = canonSlots (embedFold ws doc) :=
    (get_slots_canonical_core _ aN2 aM2 hN2 hM2).1
  have hidx : ∀ i ∈ permFn key (canonSlots doc).length, i < (canonSlots doc).length := by
    intro i hi
    have := hpermn.mem_iff.mp hi
    rwa [List.mem_range] at this
  have hmap : applyPerm (permFn key (canonSlots doc).length)
      ((canonSlots doc).map (snapUpdate (embedFold ws doc))) =
      shuffled.map (snapUpdate (embedFold ws doc)) :=
    applyPerm_map _ _ _ hidx
  have hbit : ∀ i, i < (frameBits msg).length →
      extract_bit ((shuffled.map (snapUpdate (embedFold ws doc))).getD i dummySlot) =
        (frameBits msg).getD i 0 := by
    intro i hi
    have hish : i < shuffled.length := by
      rw [hshuffled, hshlen]
      omega
    rw [getD_map_of_lt (snapUpdate (embedFold ws doc)) shuffled i hish]
    exact read_back doc (frameBits msg) rs _ hrs (frameBits_mem_le_one msg)
      hpermn (by omega) i hi
  set shuffled2 := shuffled.map (snapUpdate (embedFold ws doc)) with hsh2
  have hsh2len : shuffled2.length = (canonSlots doc).length := by
    rw [hsh2, List.length_map, hshuffled, hshlen]
  have hheader : headerVal shuffled2 = 8 * msg.length := by
    rw [headerVal]
    have hcongr : (List.range 32).map (fun i => extract_bit (shuffled2.getD i dummySlot)) =
        (List.range 32).map (fun i => (frameBits msg).getD i 0) := by
      apply List.map_congr_left
      intro i hi
      rw [List.mem_range] at hi
      exact hbit i (by omega)
    rw [hcongr, map_range_getD_take _ 32 (by omega),
      frameBits_take_header msg hmsg hbig, ofBits_header msg hbig]
  have hbody : bodyBits shuffled2 (8 * msg.length) =
      msg.flatMap (fun b => pad (bin b) 8) := by
    rw [bodyBits]
    have hcongr : (List.range (8 * msg.length)).map
        (fun j => extract_bit (shuffled2.getD (32 + j) dummySlot)) =
        (List.range (8 * msg.length)).map (fun j => (frameBits msg).getD (32 + j) 0) := by
      apply List.map_congr_left
      intro j hj
      rw [List.mem_range] at hj
      exact hbit (32 + j) (by omega)
    rw [hcongr, map_range_getD_drop _ 32 (8 * msg.length) (by omega),
      frameBits_drop_body msg hmsg hbig]
  have hcore : extractCore shuffled2 = .ok msg := by
    rw [extractCore_ok shuffled2 (by rw [hheader]; omega), hheader, hbody,
      assemble_flat msg hmsg]
  show do_extract permFn aN2 aM2 key (embedWrites (frameBits msg) shuffled rs doc) =
    Except.ok msg
  rw [hfold]
  simp only [do_extract, hg2, hredis]
  rw [List.length_map, hmap]
  exact hcore

/-- C1 witness: the two-byte payload "hi" survives embed followed by
extract on the 48-slot cover under the identity shuffle and addresses. -/
theorem round_trip_witness :
    (do_embed idPerm (fun _ => 2) idN idM "k" [104, 105] docA).2 = true ∧
    do_extract idPerm idN idM "k"
      (do_embed idPerm (fun _ => 2) idN idM "k" [104, 105] docA).1 =
      .ok [104, 105] :=
  round_trip idPerm (fun _ => 2) idN idM idN idM "k" [104, 105] docA
    (fun _ _ => List.Perm.refl _) (fun _ _ h => h) (fun _ _ _ _ h => h)
    (fun _ _ h => h) (fun _ _ _ _ h => h)
    (by decide) (by decide) (by intro i; dsimp only; omega) (by decide)
